import Mathlib

/-!
Verification of the rag_guard masking core (src/rag_guard/masker.py and
src/rag_guard/ner.py) against its natural-language specification.

Python strings are modelled as `List Char` (a Python `str` is a sequence of
Unicode code points, indexed and sliced by code point, exactly like a
`List Char`).  Python byte strings are `List Nat` with every element below
256.  Python `float` confidences are modelled as rationals `ℚ`: every
confidence the program manipulates is produced by comparisons and copies
only, never float arithmetic, so the ordered-field structure is all that is
observable.  Dictionaries are modelled as association lists in insertion
order with write-once keys, matching the masker's `if token not in mapping`
discipline.
-/

namespace RagGuard

/-- Python strings, as sequences of code points. -/
abbrev Str := List Char

/-! ### UTF-8 and SHA-1, the primitives behind `DataMasker._short_hash`

`_short_hash` computes `sha1((salt+kind+value).encode("utf-8"))`, base32
encodes the 20-byte digest, strips padding, lowercases and keeps 8 chars.
We embed the whole pipeline executably. -/

/-- Standard UTF-8 encoding of one code point (Python `str.encode("utf-8")`
acts codepoint-wise; Lean `Char` carries exactly the Unicode scalar values,
on which the encoder below is the standard 1–4 byte scheme). -/
def utf8Char (c : Char) : List Nat :=
  let n := c.toNat
  if n < 128 then [n]
  else if n < 2048 then [192 + n / 64, 128 + n % 64]
  else if n < 65536 then [224 + n / 4096, 128 + (n / 64) % 64, 128 + n % 64]
  else [240 + n / 262144, 128 + (n / 4096) % 64, 128 + (n / 64) % 64, 128 + n % 64]

/-- `s.encode("utf-8")` as a byte list. -/
def utf8 (s : Str) : List Nat := s.flatMap utf8Char

/-- 32-bit left rotation on naturals reduced mod 2^32. -/
def rotl32 (n x : Nat) : Nat :=
  ((x <<< n) ||| (x >>> (32 - n))) % 4294967296

/-- Big-endian byte decomposition of `v` into `k` bytes. -/
def beBytes (k : Nat) (v : Nat) : List Nat :=
  (List.range k).map (fun i => (v >>> (8 * (k - 1 - i))) % 256)

/-- Big-endian word from a byte list. -/
def beWord (bs : List Nat) : Nat := bs.foldl (fun a b => a * 256 + b) 0

/-- Split a list into chunks of size `m+1` (the `i`-th chunk starts at
`i*(m+1)`; there are exactly `ceil(length/(m+1))` chunks). -/
def chunksSucc {α : Type} (m : Nat) (l : List α) : List (List α) :=
  (List.range ((l.length + m) / (m + 1))).map
    (fun i => (l.drop (i * (m + 1))).take (m + 1))

/-- SHA-1 padding: append `0x80`, zero bytes to 56 mod 64, then the bit
length as 8 big-endian bytes. -/
def sha1Pad (msg : List Nat) : List Nat :=
  msg ++ [128] ++ List.replicate ((119 - msg.length % 64) % 64) 0
      ++ beBytes 8 (8 * msg.length)

/-- The sixteen 32-bit big-endian words of one 64-byte chunk. -/
def chunkWords (chunk : List Nat) : List Nat :=
  (List.range 16).map (fun i => beWord ((chunk.drop (4 * i)).take 4))

/-- Message-schedule extension of sixteen words to eighty. -/
def extendWords (ws : List Nat) : List Nat :=
  (List.range 80).foldl
    (fun acc i =>
      if i < 16 then acc ++ [ws.getD i 0]
      else acc ++ [rotl32 1 ((acc.getD (i - 3) 0) ^^^ (acc.getD (i - 8) 0)
                              ^^^ (acc.getD (i - 14) 0) ^^^ (acc.getD (i - 16) 0))])
    []

/-- The SHA-1 internal state. -/
abbrev Sha1St := Nat × Nat × Nat × Nat × Nat

/-- One of the eighty SHA-1 rounds. -/
def sha1Round (i : Nat) (st : Sha1St) (w : Nat) : Sha1St :=
  let (a, b, c, d, e) := st
  let f :=
    if i < 20 then (b &&& c) ||| (((b ^^^ 4294967295) : Nat) &&& d)
    else if i < 40 then b ^^^ c ^^^ d
    else if i < 60 then (b &&& c) ||| (b &&& d) ||| (c &&& d)
    else b ^^^ c ^^^ d
  let k :=
    if i < 20 then 1518500249
    else if i < 40 then 1859775393
    else if i < 60 then 2400959708
    else 3395469782
  let temp := (rotl32 5 a + f + e + k + w) % 4294967296
  (temp, a, rotl32 30 b, c, d)

/-- Process one 64-byte chunk. -/
def sha1Chunk (h : Sha1St) (chunk : List Nat) : Sha1St :=
  let ws := extendWords (chunkWords chunk)
  let r := (List.range 80).foldl (fun st i => sha1Round i st (ws.getD i 0)) h
  ((h.1 + r.1) % 4294967296,
   (h.2.1 + r.2.1) % 4294967296,
   (h.2.2.1 + r.2.2.1) % 4294967296,
   (h.2.2.2.1 + r.2.2.2.1) % 4294967296,
   (h.2.2.2.2 + r.2.2.2.2) % 4294967296)

/-- SHA-1 of a byte string, as its 20-byte digest (`hashlib.sha1(...).digest()`). -/
def sha1Bytes (msg : List Nat) : List Nat :=
  let s := (chunksSucc 63 (sha1Pad msg)).foldl sha1Chunk
    (1732584193, 4023233417, 2562383102, 271733878, 3285377520)
  beBytes 4 s.1 ++ beBytes 4 s.2.1 ++ beBytes 4 s.2.2.1
    ++ beBytes 4 s.2.2.2.1 ++ beBytes 4 s.2.2.2.2

@[simp] theorem beBytes_length (k v : Nat) : (beBytes k v).length = k := by
  simp [beBytes]

/-- A SHA-1 digest is always exactly 20 bytes. -/
theorem sha1Bytes_length (msg : List Nat) : (sha1Bytes msg).length = 20 := by
  simp [sha1Bytes]

/-! ### Base32 and the token generator (`DataMasker._short_hash`, `_token`)

`base64.b32encode` turns each 5-bit group of the input (bytes taken
big-endian, the final group zero-padded on the right) into one character of
the RFC 4648 alphabet, then pads with `=` to a multiple of eight characters.
On a 20-byte digest the bit count (160) is a multiple of 5, so exactly 32
characters and no `=` padding are produced; `.rstrip("=")` removes nothing.
We compose the `.lower()` step into the alphabet, which is the uppercase
RFC 4648 alphabet lowercased. -/

/-- The eight bits of a byte, most significant first. -/
def bitsOfByte (b : Nat) : List Bool :=
  (List.range 8).map (fun i => b.testBit (7 - i))

/-- All bits of a byte string, in base32 (big-endian) order. -/
def bytesBits (bs : List Nat) : List Bool := bs.flatMap bitsOfByte

/-- The RFC 4648 base32 alphabet, already lowercased. -/
def b32Alph : Str := "abcdefghijklmnopqrstuvwxyz234567".toList

/-- Character for one 5-bit group. -/
def b32Char (n : Nat) : Char := b32Alph.getD n 'a'

/-- Value of a bit group, zero-padded on the right to five bits. -/
def bitsVal (g : List Bool) : Nat :=
  (g.foldl (fun a b => 2 * a + (if b then 1 else 0)) 0) <<< (5 - g.length)

/-- Base32 encoding without the `=` padding characters (exactly what remains
after Python's `.rstrip("=")`). -/
def b32encode (bs : List Nat) : Str :=
  (chunksSucc 4 (bytesBits bs)).map (fun g => b32Char (bitsVal g))

/-- `DataMasker._short_hash(kind, value)`:
`base64.b32encode(sha1((salt+kind+value).utf8).digest()).rstrip("=").lower()[:8]`. -/
def shortHash (salt kind value : Str) : Str :=
  (b32encode (sha1Bytes (utf8 (salt ++ kind ++ value)))).take 8

/-- `DataMasker._token(kind, value) = f"<RG:{kind}:{short_hash}>"`. -/
def tokenOf (salt kind value : Str) : Str :=
  "<RG:".toList ++ kind ++ [':'] ++ shortHash salt kind value ++ ['>']

theorem bitsOfByte_length (b : Nat) : (bitsOfByte b).length = 8 := by
  simp [bitsOfByte]

theorem bytesBits_length (bs : List Nat) : (bytesBits bs).length = 8 * bs.length := by
  induction bs with
  | nil => simp [bytesBits]
  | cons b rest ih =>
      simp [bytesBits, List.flatMap_cons, bitsOfByte_length] at *
      omega

theorem chunksSucc_length {α : Type} (m : Nat) (l : List α) :
    (chunksSucc m l).length = (l.length + m) / (m + 1) := by
  simp [chunksSucc]

theorem b32Char_mem (n : Nat) : b32Char n ∈ b32Alph := by
  by_cases h : n < b32Alph.length
  · rw [b32Char, List.getD_eq_getElem?_getD, List.getElem?_eq_getElem h]
    exact List.getElem_mem h
  · rw [b32Char, List.getD_eq_getElem?_getD, List.getElem?_eq_none (Nat.le_of_not_lt h)]
    decide

/-- Every character of the short hash is from the base32 alphabet. -/
theorem shortHash_mem_alph (salt kind value : Str) :
    ∀ c ∈ shortHash salt kind value, c ∈ b32Alph := by
  intro c hc
  have h1 : c ∈ b32encode (sha1Bytes (utf8 (salt ++ kind ++ value))) :=
    List.mem_of_mem_take hc
  obtain ⟨g, -, hg⟩ := List.mem_map.mp h1
  exact hg ▸ b32Char_mem _

/-- The short hash has exactly eight characters. -/
theorem shortHash_length (salt kind value : Str) :
    (shortHash salt kind value).length = 8 := by
  simp only [shortHash, b32encode, List.length_take, List.length_map]
  rw [chunksSucc_length, bytesBits_length, sha1Bytes_length]
  decide

/-- Alphabet characters are alphanumeric and fixed under lowercasing. -/
theorem b32Alph_alnum : ∀ c ∈ b32Alph, c.isAlphanum = true ∧ c.toLower = c := by
  decide

/-- Alphabet characters are never the token delimiters. -/
theorem b32Alph_no_delim : ∀ c ∈ b32Alph, c ≠ '<' ∧ c ≠ '>' := by
  decide

/-! ### A stable sort, modelling Python's `sorted`

Python's `sorted(..., key=k)` (and `list.sort`) is the stable ascending sort
by the key; `reverse=True` compares reversed keys while still keeping ties
in original order.  Both are captured by a stable insertion sort over a
boolean comparison `le`, where `le a b` means "a may stay before b". -/

/-- Insert `x` before the first element `y` with `¬ le x y` unsatisfied,
i.e. before the first `y` such that `le x y`; ties keep `x` (the original
earlier element) first, which is exactly stability. -/
def insertSorted {α : Type} (le : α → α → Bool) (x : α) : List α → List α
  | [] => [x]
  | y :: ys => if le x y then x :: y :: ys else y :: insertSorted le x ys

/-- Stable sort by `le` (Python `sorted`). -/
def insSortBy {α : Type} (le : α → α → Bool) : List α → List α
  | [] => []
  | x :: xs => insertSorted le x (insSortBy le xs)

theorem insertSorted_perm {α : Type} (le : α → α → Bool) (x : α) (l : List α) :
    List.Perm (insertSorted le x l) (x :: l) := by
  induction l with
  | nil => rfl
  | cons y ys ih =>
      rw [insertSorted]
      by_cases h : le x y
      · rw [if_pos h]
      · rw [if_neg h]
        exact (ih.cons y).trans (List.Perm.swap x y ys)

theorem insSortBy_perm {α : Type} (le : α → α → Bool) (l : List α) :
    List.Perm (insSortBy le l) l := by
  induction l with
  | nil => rfl
  | cons x xs ih =>
      rw [insSortBy]
      exact (insertSorted_perm le x (insSortBy le xs)).trans (ih.cons x)

theorem mem_insertSorted {α : Type} {le : α → α → Bool} {x m : α} {l : List α} :
    m ∈ insertSorted le x l ↔ m ∈ x :: l :=
  (insertSorted_perm le x l).mem_iff

theorem insertSorted_pairwise {α : Type} {le : α → α → Bool}
    (htrans : ∀ a b c, le a b → le b c → le a c)
    (htotal : ∀ a b, le a b ∨ le b a)
    {x : α} {l : List α} (hl : l.Pairwise (le · ·)) :
    (insertSorted le x l).Pairwise (le · ·) := by
  induction l with
  | nil => simp [insertSorted]
  | cons y ys ih =>
      rw [List.pairwise_cons] at hl
      rw [insertSorted]
      by_cases h : le x y
      · rw [if_pos h, List.pairwise_cons]
        refine ⟨?_, List.pairwise_cons.mpr hl⟩
        intro b hb
        rcases List.mem_cons.mp hb with hb | hb
        · exact hb ▸ h
        · exact htrans x y b h (hl.1 b hb)
      · rw [if_neg h, List.pairwise_cons]
        constructor
        · intro b hb
          rcases List.mem_cons.mp (mem_insertSorted.mp hb) with hb | hb
          · rcases htotal x y with h2 | h2
            · exact absurd h2 h
            · rw [hb]
              exact h2
          · exact hl.1 b hb
        · exact ih hl.2

theorem insSortBy_pairwise {α : Type} {le : α → α → Bool}
    (htrans : ∀ a b c, le a b → le b c → le a c)
    (htotal : ∀ a b, le a b ∨ le b a)
    (l : List α) : (insSortBy le l).Pairwise (le · ·) := by
  induction l with
  | nil => simp [insSortBy]
  | cons x xs ih => exact insertSorted_pairwise htrans htotal ih

/-! ### The Entity data model (`ner.py`, class Entity)

The Python field `end` is spelled `endPos` here (`end` is reserved in Lean). -/

/-- A recognized sensitive span (`Entity(text, label, start, end, confidence)`). -/
structure Entity where
  text : Str
  label : Str
  start : Nat
  endPos : Nat
  confidence : ℚ
deriving DecidableEq

/-- C5: Token generation is a deterministic pure function of
(salt, label, value) with the fixed shape `<RG:` ++ label ++ `:` ++ hash8 ++ `>`,
where hash8 always has exactly 8 case-normalized (lowercase) alphanumeric
characters; two entities with identical (label, text) always produce the
identical token under a fixed salt. -/
theorem token_shape_deterministic (salt label value : Str) :
    tokenOf salt label value =
      "<RG:".toList ++ label ++ [':'] ++ shortHash salt label value ++ ['>']
    ∧ (shortHash salt label value).length = 8
    ∧ (∀ c ∈ shortHash salt label value, c.isAlphanum = true ∧ c.toLower = c)
    ∧ (∀ e f : Entity, e.label = label → e.text = value → f.label = label →
        f.text = value →
        tokenOf salt e.label e.text = tokenOf salt f.label f.text) := by
  refine ⟨rfl, shortHash_length salt label value, ?_, ?_⟩
  · intro c hc
    exact b32Alph_alnum c (shortHash_mem_alph salt label value c hc)
  · intro e f he1 he2 hf1 hf2
    rw [he1, he2, hf1, hf2]

/-- Witness for C5 at a concrete salt, label and value, with the determinism
conjunct instantiated at two entities sharing (label, text) but differing in
position. -/
theorem token_shape_deterministic_witness :
    (shortHash "s0000000".toList "EMAIL".toList "a@b.com".toList).length = 8
    ∧ tokenOf "s0000000".toList
        (Entity.mk "a@b.com".toList "EMAIL".toList 0 7 1).label
        (Entity.mk "a@b.com".toList "EMAIL".toList 0 7 1).text
      = tokenOf "s0000000".toList
        (Entity.mk "a@b.com".toList "EMAIL".toList 8 15 1).label
        (Entity.mk "a@b.com".toList "EMAIL".toList 8 15 1).text := by
  have h := token_shape_deterministic "s0000000".toList "EMAIL".toList "a@b.com".toList
  exact ⟨h.2.1, h.2.2.2 _ _ rfl rfl rfl rfl⟩

/-! ### The Hybrid merge (`HybridNER._merge_entities`, `_is_overlap`) -/

/-- `HybridNER._is_overlap`: `not (e1.end <= e2.start or e2.end <= e1.start)`. -/
def isOverlap (e1 e2 : Entity) : Bool :=
  !(decide (e1.endPos ≤ e2.start) || decide (e2.endPos ≤ e1.start))

/-- The inner loop of `_merge_entities` for one candidate `e`: scan the
accepted list for the first entity overlapping `e`; replace it when `e` has
strictly greater confidence, otherwise drop `e`; append `e` when nothing
overlaps. -/
def insertMerge (merged : List Entity) (e : Entity) : List Entity :=
  match merged with
  | [] => [e]
  | x :: xs =>
      if isOverlap e x then
        (if e.confidence > x.confidence then e :: xs else x :: xs)
      else x :: insertMerge xs e

/-- `sorted(entities, key=lambda x: x.start)` (stable, ascending). -/
def sortByStart (es : List Entity) : List Entity :=
  insSortBy (fun a b => decide (a.start ≤ b.start)) es

/-- `HybridNER._merge_entities`. -/
def mergeEntities (es : List Entity) : List Entity :=
  if es.isEmpty then [] else (sortByStart es).foldl insertMerge []

/-- Non-overlap of two entities, as the program decides it. -/
def NoOv (a b : Entity) : Prop := isOverlap a b = false

theorem isOverlap_comm (a b : Entity) : isOverlap a b = isOverlap b a := by
  simp [isOverlap, Bool.or_comm]

theorem noOv_symm {a b : Entity} (h : NoOv a b) : NoOv b a := by
  rwa [NoOv, isOverlap_comm]

theorem mem_insertMerge {m e : Entity} {acc : List Entity}
    (h : m ∈ insertMerge acc e) : m ∈ acc ∨ m = e := by
  induction acc with
  | nil => simp [insertMerge] at h; simp [h]
  | cons x xs ih =>
      simp only [insertMerge] at h
      by_cases hov : isOverlap e x
      · simp [hov] at h
        by_cases hc : x.confidence < e.confidence
        · simp [hc] at h
          rcases h with h | h
          · simp [h]
          · simp [h]
        · simp [hc] at h
          rcases h with h | h
          · simp [h]
          · simp [h]
      · simp [hov] at h
        rcases h with h | h
        · simp [h]
        · rcases ih h with h2 | h2
          · simp [h2]
          · simp [h2]

/-- A candidate whose start is at least every accepted start can overlap at
most one member of a pairwise non-overlapping accepted list. -/
theorem overlap_unique {e x y : Entity}
    (hxy : NoOv x y) (hx : x.start ≤ e.start) (hy : y.start ≤ e.start)
    (hox : isOverlap e x = true) : isOverlap e y = false := by
  have h1 : y.start < x.endPos → y.endPos ≤ x.start := by
    simpa [NoOv, isOverlap] using hxy
  have h2 : x.start < e.endPos ∧ e.start < x.endPos := by
    simpa [isOverlap] using hox
  have h3 : y.start < e.endPos → y.endPos ≤ e.start := by omega
  simpa [isOverlap] using h3

theorem insertMerge_pairwise {acc : List Entity} {e : Entity}
    (hacc : acc.Pairwise NoOv) (hstart : ∀ m ∈ acc, m.start ≤ e.start) :
    (insertMerge acc e).Pairwise NoOv := by
  induction acc with
  | nil => simp [insertMerge]
  | cons x xs ih =>
      rw [List.pairwise_cons] at hacc
      obtain ⟨hx_all, hxs⟩ := hacc
      simp only [insertMerge]
      by_cases hov : isOverlap e x
      · simp only [hov, if_true]
        by_cases hc : e.confidence > x.confidence
        · rw [if_pos hc, List.pairwise_cons]
          refine ⟨?_, hxs⟩
          intro y hy
          exact overlap_unique (hx_all y hy) (hstart x (by simp))
            (hstart y (by simp [hy])) hov
        · rw [if_neg hc, List.pairwise_cons]
          exact ⟨hx_all, hxs⟩
      · simp only [hov, if_false, Bool.false_eq_true, List.pairwise_cons]
        constructor
        · intro m hm
          rcases mem_insertMerge hm with h | h
          · exact hx_all m h
          · subst h
            exact noOv_symm (by simpa [NoOv] using hov)
        · exact ih hxs (fun m hm => hstart m (by simp [hm]))

theorem foldl_insertMerge_pairwise :
    ∀ (l acc : List Entity), acc.Pairwise NoOv →
      (∀ m ∈ acc, ∀ c ∈ l, m.start ≤ c.start) →
      l.Pairwise (fun a b => a.start ≤ b.start) →
      (l.foldl insertMerge acc).Pairwise NoOv := by
  intro l
  induction l with
  | nil => intro acc h _ _; simpa using h
  | cons e l ih =>
      intro acc hacc hord hsorted
      rw [List.pairwise_cons] at hsorted
      obtain ⟨he_all, hl⟩ := hsorted
      simp only [List.foldl_cons]
      apply ih
      · exact insertMerge_pairwise hacc (fun m hm => hord m hm e (by simp))
      · intro m hm c hc
        rcases mem_insertMerge hm with h | h
        · exact hord m h c (by simp [hc])
        · subst h
          exact he_all c hc
      · exact hl

/-- C2: for every input list of entities, the Hybrid merge returns a pairwise
non-overlapping sequence — no two returned entities have intersecting
[start, end) spans — including when three or more candidates mutually overlap
in a chain (the statement quantifies over all inputs). -/
theorem mergeEntities_pairwise_nonoverlapping (es : List Entity) :
    (mergeEntities es).Pairwise (fun a b => isOverlap a b = false) := by
  rw [mergeEntities]
  by_cases h : es.isEmpty
  · simp [h]
  · rw [if_neg h]
    apply foldl_insertMerge_pairwise
    · simp
    · simp
    · have hs := @insSortBy_pairwise Entity
        (fun a b : Entity => decide (a.start ≤ b.start))
        (fun a b c h1 h2 => by
          simp only [decide_eq_true_eq] at *
          omega)
        (fun a b => by
          simp only [decide_eq_true_eq]
          omega) es
      exact hs.imp (by simp)

/-! ### C3: the merge against the reference algorithm of spec §4.3.

`specOverlap` and `specStep` are written from the spec's own words (positive
overlap test, search for the first overlapping accepted index, positional
replacement); they are then proved extensionally equal to the functions
embedded from the source. -/

/-- Spec §4.3: `overlap(a,b) ⇔ a.start < b.end ∧ b.start < a.end`. -/
def specOverlap (a b : Entity) : Bool :=
  decide (a.start < b.endPos) && decide (b.start < a.endPos)

/-- One scan step of the spec's reference algorithm: find the index of the
first accepted entity overlapping the candidate; replace it exactly when the
candidate's confidence is strictly greater, otherwise drop the candidate;
append when no accepted entity overlaps. -/
def specStep (acc : List Entity) (e : Entity) : List Entity :=
  let i := acc.findIdx (fun x => specOverlap e x)
  if h : i < acc.length then
    (if acc[i].confidence < e.confidence then acc.set i e else acc)
  else acc ++ [e]

/-- The spec's reference merge: sort ascending by start, then scan in order
maintaining an accepted list. -/
def specMerge (es : List Entity) : List Entity :=
  (sortByStart es).foldl specStep []

theorem specOverlap_eq (a b : Entity) : specOverlap a b = isOverlap a b := by
  have h1 : specOverlap a b = true ↔ isOverlap a b = true := by
    simp only [specOverlap, isOverlap, Bool.and_eq_true, decide_eq_true_eq,
      Bool.not_eq_true', Bool.or_eq_false_iff, decide_eq_false_iff_not, Nat.not_le]
    constructor
    · exact fun h => ⟨h.2, h.1⟩
    · exact fun h => ⟨h.2, h.1⟩
  cases hsb : specOverlap a b <;> cases hib : isOverlap a b <;> simp_all

theorem specStep_eq (acc : List Entity) (e : Entity) :
    specStep acc e = insertMerge acc e := by
  induction acc with
  | nil => simp [specStep, insertMerge]
  | cons x xs ih =>
      simp only [specStep, insertMerge, List.findIdx_cons, specOverlap_eq]
      by_cases hov : isOverlap e x
      · simp [hov, gt_iff_lt]
      · simp only [hov, Bool.false_eq_true, if_false, cond_false]
        rw [← ih]
        simp only [specStep, specOverlap_eq]
        by_cases h : xs.findIdx (fun y => isOverlap e y) < xs.length
        · rw [dif_pos (by simpa using Nat.succ_lt_succ h), dif_pos h]
          simp only [List.getElem_cons_succ, List.set_cons_succ]
          split <;> rfl
        · rw [dif_neg (by simpa using fun hh => h (Nat.lt_of_succ_lt_succ hh)),
            dif_neg h]
          simp

theorem foldl_specStep_eq (l acc : List Entity) :
    l.foldl specStep acc = l.foldl insertMerge acc := by
  induction l generalizing acc with
  | nil => rfl
  | cons e l ih => simp only [List.foldl_cons, specStep_eq, ih]

/-- C3: the Hybrid merge equals the spec's reference algorithm (sort
candidates ascending by start, then scan, replacing the first overlapping
accepted entity iff the candidate's confidence is strictly greater and
appending when nothing overlaps); in particular for A=[0,10) confidence 1.0
and B=[5,15) confidence 0.5 the merged result contains only A. -/
theorem mergeEntities_eq_specMerge :
    (∀ es : List Entity, mergeEntities es = specMerge es)
    ∧ mergeEntities
        [Entity.mk "A".toList "LBL".toList 0 10 1,
         Entity.mk "B".toList "LBL".toList 5 15 (mkRat 1 2)]
      = [Entity.mk "A".toList "LBL".toList 0 10 1] := by
  constructor
  · intro es
    rw [mergeEntities, specMerge]
    by_cases h : es.isEmpty
    · have : es = [] := List.isEmpty_iff.mp h
      subst this
      simp [sortByStart, insSortBy]
    · rw [if_neg h, foldl_specStep_eq]
  · decide

/-! ### C10: merging an already non-overlapping list is sorting -/

theorem insertMerge_of_forall_noOv {acc : List Entity} {e : Entity}
    (h : ∀ m ∈ acc, isOverlap e m = false) :
    insertMerge acc e = acc ++ [e] := by
  induction acc with
  | nil => simp [insertMerge]
  | cons x xs ih =>
      rw [insertMerge, if_neg (by simp [h x (by simp)])]
      rw [ih (fun m hm => h m (by simp [hm]))]
      simp

theorem foldl_insertMerge_of_pairwise :
    ∀ (l acc : List Entity), l.Pairwise NoOv →
      (∀ c ∈ l, ∀ m ∈ acc, isOverlap c m = false) →
      l.foldl insertMerge acc = acc ++ l := by
  intro l
  induction l with
  | nil => intro acc _ _; simp
  | cons e l ih =>
      intro acc hp hsep
      rw [List.pairwise_cons] at hp
      simp only [List.foldl_cons]
      rw [insertMerge_of_forall_noOv (hsep e (by simp))]
      rw [ih (acc ++ [e]) hp.2]
      · simp
      · intro c hc m hm
        rcases List.mem_append.mp hm with h | h
        · exact hsep c (by simp [hc]) m h
        · simp at h
          subst h
          exact noOv_symm (hp.1 c hc)

/-- C10: for every input list that is already pairwise non-overlapping, the
Hybrid merge drops and replaces nothing — it returns exactly the input
entities stably sorted ascending by start. -/
theorem mergeEntities_of_nonoverlapping (es : List Entity)
    (h : es.Pairwise fun a b => isOverlap a b = false) :
    mergeEntities es = sortByStart es := by
  rw [mergeEntities]
  by_cases he : es.isEmpty
  · have : es = [] := List.isEmpty_iff.mp he
    subst this
    simp [sortByStart, insSortBy]
  · rw [if_neg he]
    have hperm : List.Perm (sortByStart es) es := insSortBy_perm _ es
    have hs : (sortByStart es).Pairwise NoOv :=
      (hperm.pairwise_iff fun hab => noOv_symm hab).mpr h
    rw [foldl_insertMerge_of_pairwise (sortByStart es) [] hs (by simp)]
    simp

/-! ### The delegated extractor (`LLMNER`)

The reply of the external completion function is untrusted text.  The code
locates a structured block (`re.search` for a braced region) and decodes it
with `json.loads`; decoding failure of any kind falls back to
`_fallback_parse`, which returns the empty list.  We model the outcome of
locating-and-decoding as an `Option (List RawItem)`: `none` when no
parseable structured block exists, `some items` when decoding produced a
record whose `entities` array has the well-typed fields read by the loop
(`item.get` defaults folded in: missing `start`/`end` read as 0, missing
`confidence` as 0.5, missing `label` as UNKNOWN).  Everything after
decoding — span verification, text verification, confidence filtering and
truncation — is embedded from the source. -/

/-- One decoded candidate from the reply's `entities` array.  JSON integers
may be negative, hence `Int` positions. -/
structure RawItem where
  text : Str
  label : Str
  start : Int
  endPos : Int
  confidence : ℚ
deriving DecidableEq

/-- The verification of one candidate inside `_parse_llm_response`:
`0 <= start < end <= len(original_text)` and
`original_text[start:end] == expected_text`; failing candidates are
discarded. -/
def validateItem (orig : Str) (it : RawItem) : Option Entity :=
  if 0 ≤ it.start ∧ it.start < it.endPos ∧ it.endPos ≤ (orig.length : Int) then
    (if (orig.drop it.start.toNat).take (it.endPos.toNat - it.start.toNat) = it.text then
      some (Entity.mk it.text it.label it.start.toNat it.endPos.toNat it.confidence)
    else none)
  else none

/-- The candidate loop of `_parse_llm_response`. -/
def parseLLMItems (items : List RawItem) (orig : Str) : List Entity :=
  items.filterMap (validateItem orig)

/-- Input truncation in `LLMNER.extract_entities`:
`text[:max_text_length] + "...[截断]"` when the input exceeds the limit. -/
def truncateText (maxLen : Nat) (t : Str) : Str :=
  if maxLen < t.length then t.take maxLen ++ "...[截断]".toList else t

/-- `LLMNER.extract_entities` downstream of the completion call, as a
function of the decoded reply: truncate, parse-and-verify, then filter by
`confidence >= confidence_threshold`. -/
def llmExtractEntities (decoded : Option (List RawItem)) (threshold : ℚ)
    (maxLen : Nat) (t : Str) : List Entity :=
  let orig := truncateText maxLen t
  let ents := match decoded with
    | some items => parseLLMItems items orig
    | none => []
  ents.filter (fun e => decide (threshold ≤ e.confidence))

/-- C9: if the delegated extractor's reply contains no parseable
structured-data block, extraction yields the empty entity sequence (the
`_fallback_parse` path) rather than an error, for every threshold, length
limit and input text. -/
theorem llm_unparseable_reply_empty (threshold : ℚ) (maxLen : Nat) (t : Str) :
    llmExtractEntities none threshold maxLen t = [] := rfl

/-- C4: every entity returned by the delegated extractor satisfies
`start < end ≤ length` of the (possibly truncated) input, its text equals
the corresponding slice of that input, and its confidence is at least the
configured threshold (`0 ≤ start` holds because positions are naturals
after validation).  Candidates violating any of these conditions therefore
never contribute an entity to the output. -/
theorem llm_candidates_validated (items : List RawItem) (threshold : ℚ)
    (maxLen : Nat) (t : Str) :
    ∀ e ∈ llmExtractEntities (some items) threshold maxLen t,
      e.start < e.endPos
      ∧ e.endPos ≤ (truncateText maxLen t).length
      ∧ e.text = ((truncateText maxLen t).drop e.start).take (e.endPos - e.start)
      ∧ threshold ≤ e.confidence := by
  intro e he
  simp only [llmExtractEntities, List.mem_filter, decide_eq_true_eq] at he
  obtain ⟨hmem, hconf⟩ := he
  simp only [parseLLMItems, List.mem_filterMap] at hmem
  obtain ⟨it, -, hval⟩ := hmem
  rw [validateItem] at hval
  split at hval
  · split at hval
    · rename_i hb htext
      cases hval
      dsimp only at hconf ⊢
      refine ⟨by omega, by omega, htext.symm, hconf⟩
    · exact absurd hval (by simp)
  · exact absurd hval (by simp)

/-- Witness for C4 at a concrete decoded reply with one valid candidate. -/
theorem llm_candidates_validated_witness :
    (Entity.mk "ab".toList "PERSON".toList 0 2 (mkRat 9 10)).start
        < (Entity.mk "ab".toList "PERSON".toList 0 2 (mkRat 9 10)).endPos
    ∧ (Entity.mk "ab".toList "PERSON".toList 0 2 (mkRat 9 10)).endPos
        ≤ (truncateText 2000 "abc".toList).length
    ∧ (Entity.mk "ab".toList "PERSON".toList 0 2 (mkRat 9 10)).text
        = ((truncateText 2000 "abc".toList).drop
            (Entity.mk "ab".toList "PERSON".toList 0 2 (mkRat 9 10)).start).take
          ((Entity.mk "ab".toList "PERSON".toList 0 2 (mkRat 9 10)).endPos
            - (Entity.mk "ab".toList "PERSON".toList 0 2 (mkRat 9 10)).start)
    ∧ (mkRat 7 10)
        ≤ (Entity.mk "ab".toList "PERSON".toList 0 2 (mkRat 9 10)).confidence :=
  llm_candidates_validated
    [RawItem.mk "ab".toList "PERSON".toList 0 2 (mkRat 9 10)]
    (mkRat 7 10) 2000 "abc".toList
    (Entity.mk "ab".toList "PERSON".toList 0 2 (mkRat 9 10)) (by decide)

/-- Witness for C10 at a concrete non-overlapping two-entity list given in
descending start order. -/
theorem mergeEntities_of_nonoverlapping_witness :
    (([Entity.mk "b".toList "L".toList 5 8 1,
       Entity.mk "a".toList "L".toList 0 3 1] : List Entity).Pairwise
        fun a b => isOverlap a b = false)
    ∧ mergeEntities
        [Entity.mk "b".toList "L".toList 5 8 1,
         Entity.mk "a".toList "L".toList 0 3 1]
      = sortByStart
        [Entity.mk "b".toList "L".toList 5 8 1,
         Entity.mk "a".toList "L".toList 0 3 1] := by
  exact ⟨by decide, mergeEntities_of_nonoverlapping _ (by decide)⟩

/-! ### The mask engine (`DataMasker.mask`)

`mask` extracts entities, stores them in the `last_entities` slot, sorts the
same list in place by start descending (Python's stable `reverse=True`),
then splices `masked_text[:start] + token + masked_text[end:]` for each
entity while inserting `token -> original` into the mapping only when the
token is not yet a key. -/

/-- `entities.sort(key=lambda x: x.start, reverse=True)` (stable). -/
def sortByStartDesc (es : List Entity) : List Entity :=
  insSortBy (fun a b => decide (b.start ≤ a.start)) es

/-- The write-once mapping insertion:
`if token not in mapping: mapping[token] = entity.text`. -/
def mapInsert (salt : Str) (m : List (Str × Str)) (e : Entity) : List (Str × Str) :=
  let tk := tokenOf salt e.label e.text
  if m.any (fun pr => pr.1 == tk) then m else m ++ [(tk, e.text)]

/-- One iteration of the substitution loop: splice the token over the span
and record the mapping entry. -/
def maskStep (salt : Str) (acc : Str × List (Str × Str)) (e : Entity) :
    Str × List (Str × Str) :=
  (acc.1.take e.start ++ tokenOf salt e.label e.text ++ acc.1.drop e.endPos,
   mapInsert salt acc.2 e)

/-- `DataMasker.mask` downstream of extraction: returns
`(masked_text, mapping, entities)` where `entities` is the in-place
descending-sorted list (also what the `last_entities` slot aliases). -/
def maskEntities (salt : Str) (text : Str) (entities : List Entity) :
    Str × List (Str × Str) × List Entity :=
  let sorted := sortByStartDesc entities
  let r := sorted.foldl (maskStep salt) (text, [])
  (r.1, r.2, sorted)

/-! ### The unmask engine (`DataMasker.unmask`)

`unmask` sorts the mapping keys by length descending and runs
`re.sub(re.escape(tk), mapping[tk], result)` for each key.  Two things
happen inside that call.  First, `re.sub` processes the replacement string
as a template: backslash escapes are interpreted (`\n` becomes a newline,
`\g<0>` and octal escapes expand, a backslash before another ASCII letter
such as `\d` raises `re.error` — even when the pattern never matches) and a
replacement with no backslash at all is inserted verbatim.  Second, every
leftmost non-overlapping occurrence of the literal `tk` is replaced by the
expanded template; `re.escape(tk)` has no groups and each of its matches is
exactly `tk`, so the expanded template is one constant string per key.  An
empty pattern makes `re.sub` insert the replacement at every boundary,
which the model keeps faithful even though generated tokens are never
empty.  Any exception escaping the loop is wrapped in
`UnmaskingError("回填处理失败: ...")`, so the model of `unmask` itself
(`unmaskRun`) is `Except`-valued: `subst` below is only the second,
matching half, applied to an already-expanded template. -/

/-- `mapping[tk]` (the key is always present when called from `unmask`;
a missing key yields the empty string in the model). -/
def lookupVal (mapping : List (Str × Str)) (k : Str) : Str :=
  match mapping.find? (fun pr => pr.1 == k) with
  | some pr => pr.2
  | none => []

/-- Global leftmost non-overlapping replacement of the nonempty pattern
`p :: t` by `v`, with explicit fuel so the recursion is structural (the fuel
is always at least the text length at call sites). -/
def substFuel (p : Char) (t v : Str) : Nat → Str → Str
  | 0, s => s
  | _ + 1, [] => []
  | fuel + 1, c :: rest =>
      if (p :: t).isPrefixOf (c :: rest) then
        v ++ substFuel p t v fuel (rest.drop t.length)
      else c :: substFuel p t v fuel rest

/-- Python `re.sub` with an empty pattern: the replacement is inserted at
every boundary. -/
def substEmpty (v : Str) (s : Str) : Str := v ++ s.flatMap (fun c => c :: v)

/-- The matching half of `re.sub(re.escape(tk), v, s)`: replace every
leftmost non-overlapping occurrence of the literal token `tk` by the string
`v`.  In `re.sub` itself `v` is the *expanded* replacement template, not the
raw `mapping[tk]`; `parseTemplate` below performs that expansion. -/
def subst (tk v s : Str) : Str :=
  match tk with
  | [] => substEmpty v s
  | p :: t => substFuel p t v s.length s

/-- The substitution loop of `unmask` in the escape-free case: every value
is inserted verbatim.  This coincides with `re.sub` exactly when no mapping
value contains a backslash (then its template expands to itself and cannot
raise); the full model of `DataMasker.unmask`, template expansion and error
channel included, is `unmaskRun` below. -/
def unmaskFn (text : Str) (mapping : List (Str × Str)) : Str :=
  let toks := insSortBy (fun a b : Str => decide (b.length ≤ a.length))
    (mapping.map (fun pr => pr.1))
  toks.foldl (fun res tk => subst tk (lookupVal mapping tk) res) text

/-- ASCII letter test (`re._parser.ASCIILETTERS`). -/
def isAsciiLetter (c : Char) : Bool :=
  ('a' ≤ c && c ≤ 'z') || ('A' ≤ c && c ≤ 'Z')

/-- Octal digit test (`re._parser.OCTDIGITS`). -/
def isOctDigit (c : Char) : Bool := '0' ≤ c && c ≤ '7'

/-- Numeric value of a decimal/octal digit character. -/
def digitVal (c : Char) : Nat := c.toNat - 48

/-- The two-character escapes a replacement template understands
(`re._parser.ESCAPES`): the control characters BEL, BS, FF, LF, CR, TAB,
VT, and the backslash itself. -/
def escMap (c : Char) : Option Char :=
  if c = 'a' then some (Char.ofNat 7)
  else if c = 'b' then some (Char.ofNat 8)
  else if c = 'f' then some (Char.ofNat 12)
  else if c = 'n' then some (Char.ofNat 10)
  else if c = 'r' then some (Char.ofNat 13)
  else if c = 't' then some (Char.ofNat 9)
  else if c = 'v' then some (Char.ofNat 11)
  else if c = '\\' then some '\\'
  else none

/-- ASCII identifier shape, deciding between the `unknown group name` and
`bad character in group name` errors for a `\g<...>` name that is not a
digit string (the compiled patterns have no named groups, so every
identifier-shaped name is unknown).  The stdlib uses the full-Unicode
`str.isidentifier`; the difference only selects between two error paths. -/
def isAsciiIdent (s : Str) : Bool :=
  match s with
  | [] => false
  | c :: cs => (isAsciiLetter c || c = '_')
      && cs.all (fun x => isAsciiLetter x || x.isDigit || x = '_')

/-- Decimal value of an all-digit group name. -/
def digitsVal (s : Str) : Nat := s.foldl (fun a c => a * 10 + digitVal c) 0

/-- ASCII whitespace, the approximation of what `int()` strips around a
numeric `\g<...>` group name. -/
def isPySpace (c : Char) : Bool := c.toNat = 32 || (9 ≤ c.toNat && c.toNat ≤ 13)

/-- Both-ends whitespace strip. -/
def pyStrip (s : Str) : Str :=
  ((s.dropWhile isPySpace).reverse.dropWhile isPySpace).reverse

/-- An `int()` digit run: ASCII digits with single underscores strictly
between digits. -/
def pyDigits1 : Str → Bool
  | [] => true
  | '_' :: rest =>
      match rest with
      | c :: rest2 => c.isDigit && pyDigits1 rest2
      | [] => false
  | c :: rest => c.isDigit && pyDigits1 rest

/-- Nonempty `int()` digit run. -/
def pyDigits : Str → Bool
  | [] => false
  | c :: rest => c.isDigit && pyDigits1 rest

/-- `int(name)` on a non-identifier `\g<...>` group name, mirroring the
laxity of Python's `int()`: surrounding whitespace and one leading sign are
tolerated, underscores may separate digits.  `none` is the bad-character
error; a negative result other than `-0` is the same error, so it also maps
to `none`.  (`int()` additionally accepts non-ASCII decimal digits, which
the model leaves to the bad-character path.) -/
def parseIntName (s : Str) : Option Nat :=
  match pyStrip s with
  | '+' :: r =>
      if pyDigits r then some (digitsVal (r.filter (fun c => decide (c ≠ '_'))))
      else none
  | '-' :: r =>
      if pyDigits r then
        if digitsVal (r.filter (fun c => decide (c ≠ '_'))) = 0 then some 0
        else none
      else none
  | r =>
      if pyDigits r then some (digitsVal (r.filter (fun c => decide (c ≠ '_'))))
      else none

/-- `re._parser.parse_template`, specialised to the patterns `unmask`
compiles: `re.escape(tk)` has zero groups and no named groups, and every
one of its matches is the literal `tk`, so a group-0 reference expands to
`tk` and any other group reference is an `invalid group reference` error.
The scanner follows the stdlib: an unescaped character is literal; `\` at
the end of the template is a bad escape; `\g<name>` requires `<`, a
nonempty name and a closing `>` (identifier-shaped names are unknown
groups, other names go through `int()` via `parseIntName` — the group
index on success, a bad character otherwise); `\0` with up to two more
octal digits is an octal escape;
`\1`-`\9` collects digits into a group number, except that three octal
digits form an octal escape (rejected above `0o377`); `\` before another
ASCII letter outside the known escapes raises `bad escape`; `\` before a
non-letter is kept verbatim, backslash included.  Error values carry only
the message text, not the stdlib's position suffix, since `unmask` only
propagates them into an `UnmaskingError` string.  `parseTemplateEsc`
handles what follows one backslash, continuing the scan through `go`. -/
def parseTemplateEsc (tk : Str) (go : Str → Except Str Str) :
    Str → Except Str Str
  | [] => .error "bad escape (end of pattern)".toList
  | d :: rest2 =>
      if d = 'g' then
        match rest2 with
        | '<' :: rest3 =>
            let name := rest3.takeWhile (fun x => decide (x ≠ '>'))
            match rest3.dropWhile (fun x => decide (x ≠ '>')) with
            | [] =>
                if name.isEmpty then .error "missing group name".toList
                else .error "missing >, unterminated name".toList
            | _ :: rest4 =>
                if name.isEmpty then .error "missing group name".toList
                else if isAsciiIdent name then
                  .error "unknown group name".toList
                else
                  match parseIntName name with
                  | some 0 => (go rest4).map (fun r => tk ++ r)
                  | some (_ + 1) => .error "invalid group reference".toList
                  | none => .error "bad character in group name".toList
        | _ => .error "missing <".toList
      else if d = '0' then
        match rest2 with
        | e1 :: rest3 =>
            if isOctDigit e1 then
              match rest3 with
              | e2 :: rest4 =>
                  if isOctDigit e2 then
                    (go rest4).map
                      (fun r => Char.ofNat (digitVal e1 * 8 + digitVal e2) :: r)
                  else (go rest3).map (fun r => Char.ofNat (digitVal e1) :: r)
              | [] => .ok [Char.ofNat (digitVal e1)]
            else (go rest2).map (fun r => Char.ofNat 0 :: r)
        | [] => .ok [Char.ofNat 0]
      else if d.isDigit then
        match rest2 with
        | e1 :: rest3 =>
            if e1.isDigit then
              match rest3 with
              | e2 :: rest4 =>
                  if isOctDigit d && isOctDigit e1 && isOctDigit e2 then
                    if 255 < digitVal d * 64 + digitVal e1 * 8 + digitVal e2 then
                      .error "octal escape value outside of range 0-0o377".toList
                    else
                      (go rest4).map
                        (fun r =>
                          Char.ofNat (digitVal d * 64 + digitVal e1 * 8
                            + digitVal e2) :: r)
                  else .error "invalid group reference".toList
              | [] => .error "invalid group reference".toList
            else .error "invalid group reference".toList
        | [] => .error "invalid group reference".toList
      else
        match escMap d with
        | some e => (go rest2).map (fun r => e :: r)
        | none =>
            if isAsciiLetter d then .error "bad escape".toList
            else (go rest2).map (fun r => '\\' :: d :: r)

/-- The template scanner: an unescaped character is literal, a backslash
hands the tail to `parseTemplateEsc`.  The fuel is at least the remaining
length at every call, so the `0` case is never reached. -/
def parseTemplateFuel (tk : Str) : Nat → Str → Except Str Str
  | 0, _ => .ok []
  | _ + 1, [] => .ok []
  | fuel + 1, c :: rest =>
      if c = '\\' then parseTemplateEsc tk (parseTemplateFuel tk fuel) rest
      else (parseTemplateFuel tk fuel rest).map (fun r => c :: r)

/-- Expansion of the replacement template `repl` for one
`re.sub(re.escape(tk), repl, _)` call: the constant string substituted for
every match, or the `re.error` message.  `re.sub` performs this compilation
before scanning, so the error is raised even when `tk` never occurs. -/
def parseTemplate (tk repl : Str) : Except Str Str :=
  parseTemplateFuel tk repl.length repl

/-- One iteration of the unmask loop,
`result = re.sub(re.escape(tk), mapping[tk], result)`: expand the
replacement template, then replace every occurrence of the literal key. -/
def unmaskStep (mapping : List (Str × Str)) (res tk : Str) : Except Str Str :=
  match parseTemplate tk (lookupVal mapping tk) with
  | .error e => .error e
  | .ok r => .ok (subst tk r res)

/-- `DataMasker.unmask(text, mapping)`: replace every mapping key by its
value, longest keys first (`sorted(mapping.keys(), key=len, reverse=True)`);
any exception in the loop — in particular a bad escape in a replacement
value — aborts the call as `UnmaskingError("回填处理失败: ...")`. -/
def unmaskRun (text : Str) (mapping : List (Str × Str)) : Except Str Str :=
  let toks := insSortBy (fun a b : Str => decide (b.length ≤ a.length))
    (mapping.map (fun pr => pr.1))
  match toks.foldlM (unmaskStep mapping) text with
  | .error e => .error ("回填处理失败: ".toList ++ e)
  | .ok r => .ok r

deriving instance DecidableEq for Except

theorem substFuel_congr (p : Char) (t v : Str) :
    ∀ (f1 : Nat) (s : Str) (f2 : Nat), s.length ≤ f1 → s.length ≤ f2 →
      substFuel p t v f1 s = substFuel p t v f2 s := by
  intro f1
  induction f1 with
  | zero =>
      intro s f2 h1 h2
      have : s = [] := List.eq_nil_of_length_eq_zero (Nat.le_zero.mp h1)
      subst this
      cases f2 <;> rfl
  | succ f1 ih =>
      intro s f2 h1 h2
      cases s with
      | nil => cases f2 <;> rfl
      | cons c rest =>
          cases f2 with
          | zero => simp at h2
          | succ f2 =>
              rw [substFuel, substFuel]
              by_cases h : (p :: t).isPrefixOf (c :: rest)
              · rw [if_pos h, if_pos h,
                  ih (rest.drop t.length) f2
                    (by simp at h1 ⊢; omega) (by simp at h2 ⊢; omega)]
              · rw [if_neg h, if_neg h,
                  ih rest f2 (by simp at h1 ⊢; omega) (by simp at h2 ⊢; omega)]

theorem subst_cons (p : Char) (t v : Str) (c : Char) (rest : Str) :
    subst (p :: t) v (c :: rest) =
      if (p :: t).isPrefixOf (c :: rest) then
        v ++ subst (p :: t) v (rest.drop t.length)
      else c :: subst (p :: t) v rest := by
  show substFuel p t v (rest.length + 1) (c :: rest) = _
  rw [substFuel]
  by_cases h : (p :: t).isPrefixOf (c :: rest)
  · rw [if_pos h, if_pos h]
    rw [substFuel_congr p t v rest.length (rest.drop t.length)
      (rest.drop t.length).length (by simp) le_rfl]
    rfl
  · rw [if_neg h, if_neg h]
    rfl

theorem subst_nil (p : Char) (t v : Str) : subst (p :: t) v [] = [] := rfl

theorem parseTemplateFuel_no_bs (tk : Str) :
    ∀ (fuel : Nat) (repl : Str), repl.length ≤ fuel → '\\' ∉ repl →
      parseTemplateFuel tk fuel repl = .ok repl := by
  intro fuel
  induction fuel with
  | zero =>
      intro repl h1 _
      have : repl = [] := List.eq_nil_of_length_eq_zero (Nat.le_zero.mp h1)
      subst this
      rfl
  | succ fuel ih =>
      intro repl h1 h2
      cases repl with
      | nil => rfl
      | cons c rest =>
          have hc : ¬ c = '\\' := fun hh => h2 (hh ▸ List.mem_cons_self c rest)
          show (if c = '\\' then parseTemplateEsc tk (parseTemplateFuel tk fuel) rest
              else (parseTemplateFuel tk fuel rest).map (fun r => c :: r))
            = .ok (c :: rest)
          rw [if_neg hc,
            ih rest (by simpa using Nat.le_of_succ_le_succ (by simpa using h1))
              (fun hh => h2 (List.mem_cons_of_mem _ hh))]
          rfl

/-- A backslash-free replacement template expands to itself without error. -/
theorem parseTemplate_no_bs (tk repl : Str) (h : '\\' ∉ repl) :
    parseTemplate tk repl = .ok repl :=
  parseTemplateFuel_no_bs tk repl.length repl le_rfl h

theorem foldlM_unmaskStep_ok (M : List (Str × Str)) :
    ∀ (K : List Str) (s : Str), (∀ k ∈ K, '\\' ∉ lookupVal M k) →
      K.foldlM (unmaskStep M) s
        = Except.ok (K.foldl (fun res tk => subst tk (lookupVal M tk) res) s) := by
  intro K
  induction K with
  | nil => intro s _; rfl
  | cons k K2 ih =>
      intro s h
      have hpt : parseTemplate k (lookupVal M k) = .ok (lookupVal M k) :=
        parseTemplate_no_bs k _ (h k (List.mem_cons_self k K2))
      have hstep : unmaskStep M s k = Except.ok (subst k (lookupVal M k) s) := by
        unfold unmaskStep
        rw [hpt]
      show (unmaskStep M s k >>= fun s2 => K2.foldlM (unmaskStep M) s2) = _
      rw [hstep]
      show K2.foldlM (unmaskStep M) (subst k (lookupVal M k) s) = _
      rw [ih _ (fun k2 hk2 => h k2 (List.mem_cons_of_mem _ hk2))]
      rfl

/-- When no mapping value contains a backslash, `unmask` cannot raise and
agrees with the verbatim substitution loop `unmaskFn`. -/
theorem unmaskRun_ok (text : Str) (M : List (Str × Str))
    (h : ∀ k : Str, '\\' ∉ lookupVal M k) :
    unmaskRun text M = Except.ok (unmaskFn text M) := by
  unfold unmaskRun unmaskFn
  dsimp only
  rw [foldlM_unmaskStep_ok M _ text (fun k _ => h k)]

/-- Every value of a mapping whose pair values are backslash-free is
backslash-free under lookup (a missing key looks up to the empty string). -/
theorem lookupVal_no_bs (M : List (Str × Str))
    (h : ∀ pr ∈ M, '\\' ∉ pr.2) (k : Str) : '\\' ∉ lookupVal M k := by
  rw [lookupVal]
  cases hf : M.find? (fun pr => pr.1 == k) with
  | none => simp
  | some pr => exact h pr (List.mem_of_find?_eq_some hf)

/-! ### C8: the mapping is write-once per token -/

theorem maskFold_snd (salt : Str) :
    ∀ (l : List Entity) (s : Str) (m : List (Str × Str)),
      (l.foldl (maskStep salt) (s, m)).2 = l.foldl (mapInsert salt) m := by
  intro l
  induction l with
  | nil => intro s m; rfl
  | cons e l ih =>
      intro s m
      simp only [List.foldl_cons]
      exact ih _ _

theorem buildMap_find (salt : Str) :
    ∀ (l : List Entity) (acc : List (Str × Str)) (tkn : Str),
      ((l.foldl (mapInsert salt) acc).find? (fun pr => pr.1 == tkn)).map
          (fun pr => pr.2)
        = ((acc.find? (fun pr => pr.1 == tkn)).map (fun pr => pr.2)).or
            ((l.find? (fun e => tokenOf salt e.label e.text == tkn)).map
              (fun e => e.text)) := by
  intro l
  induction l with
  | nil =>
      intro acc tkn
      cases h : acc.find? (fun pr => pr.1 == tkn) <;> simp [h]
  | cons e l ih =>
      intro acc tkn
      simp only [List.foldl_cons]
      rw [ih]
      by_cases hany : acc.any (fun pr => pr.1 == tokenOf salt e.label e.text)
      · rw [mapInsert]
        simp only [hany, if_true]
        by_cases htk : (tokenOf salt e.label e.text == tkn) = true
        · have htkn : tkn = tokenOf salt e.label e.text := (eq_of_beq htk).symm
          subst htkn
          obtain ⟨pr, hpr, hpr2⟩ := List.any_eq_true.mp hany
          cases hacc : acc.find? (fun pr => pr.1 == tokenOf salt e.label e.text) with
          | none =>
              rw [List.find?_eq_none] at hacc
              exact absurd hpr2 (hacc pr hpr)
          | some val => simp [hacc]
        · have htk2 : (tokenOf salt e.label e.text == tkn) = false := by
            simpa using htk
          simp only [List.find?_cons, htk2]
      · rw [mapInsert]
        simp only [hany, if_false]
        cases hacc : acc.find? (fun pr => pr.1 == tkn) with
        | some pr => simp [List.find?_append, hacc]
        | none =>
            by_cases htk : (tokenOf salt e.label e.text == tkn) = true
            · have htkn : tkn = tokenOf salt e.label e.text := (eq_of_beq htk).symm
              subst htkn
              simp [List.find?_append, hacc, List.find?_cons]
            · have htk2 : (tokenOf salt e.label e.text == tkn) = false := by
                simpa using htk
              simp [List.find?_append, hacc, List.find?_cons, htk2]

theorem find?_key_isSome (m : List (Str × Str)) (tkn : Str) :
    ((m.find? (fun pr => pr.1 == tkn)).map (fun pr => pr.2)).isSome = true
      ↔ ∃ pr ∈ m, pr.1 = tkn := by
  cases h : m.find? (fun pr => pr.1 == tkn) with
  | none =>
      rw [List.find?_eq_none] at h
      simp only [Option.map_none', Option.isSome_none, Bool.false_eq_true,
        false_iff]
      rintro ⟨pr, hpr, hpr2⟩
      exact h pr hpr (by simpa using hpr2)
  | some pr =>
      simp only [Option.map_some', Option.isSome_some, true_iff]
      exact ⟨pr, List.mem_of_find?_eq_some h, by simpa using List.find?_some h⟩

theorem find?_tok_isSome (salt : Str) (l : List Entity) (tkn : Str) :
    ((l.find? (fun e => tokenOf salt e.label e.text == tkn)).map
        (fun e => e.text)).isSome = true
      ↔ ∃ e ∈ l, tokenOf salt e.label e.text = tkn := by
  cases h : l.find? (fun e => tokenOf salt e.label e.text == tkn) with
  | none =>
      rw [List.find?_eq_none] at h
      simp only [Option.map_none', Option.isSome_none, Bool.false_eq_true,
        false_iff]
      rintro ⟨e, he, hte⟩
      exact h e he (by simpa using hte)
  | some e =>
      simp only [Option.map_some', Option.isSome_some, true_iff]
      exact ⟨e, List.mem_of_find?_eq_some h, by simpa using List.find?_some h⟩

/-- C8: within one mask call the mapping is write-once per token — looking
up any token in the returned mapping yields the text of the first processed
entity (processing order is start-descending) bearing that token, so a later
duplicate token never re-inserts its value — and the mapping's keys are
exactly the tokens of the processed entities. -/
theorem mask_mapping_write_once (salt text : Str) (entities : List Entity) :
    (∀ tkn : Str,
       (((maskEntities salt text entities).2.1).find? (fun pr => pr.1 == tkn)).map
           (fun pr => pr.2)
         = ((sortByStartDesc entities).find?
             (fun e => tokenOf salt e.label e.text == tkn)).map (fun e => e.text))
    ∧ (∀ tkn : Str,
        (∃ pr ∈ (maskEntities salt text entities).2.1, pr.1 = tkn)
          ↔ ∃ e ∈ entities, tokenOf salt e.label e.text = tkn) := by
  have hmap : (maskEntities salt text entities).2.1
      = (sortByStartDesc entities).foldl (mapInsert salt) [] :=
    maskFold_snd salt (sortByStartDesc entities) text []
  have hfind : ∀ tkn : Str,
      (((maskEntities salt text entities).2.1).find? (fun pr => pr.1 == tkn)).map
          (fun pr => pr.2)
        = ((sortByStartDesc entities).find?
            (fun e => tokenOf salt e.label e.text == tkn)).map (fun e => e.text) := by
    intro tkn
    rw [hmap, buildMap_find]
    simp
  refine ⟨hfind, ?_⟩
  intro tkn
  rw [← find?_key_isSome, hfind tkn, find?_tok_isSome]
  constructor
  · rintro ⟨e, he, hte⟩
    exact ⟨e, (insSortBy_perm _ entities).mem_iff.mp he, hte⟩
  · rintro ⟨e, he, hte⟩
    exact ⟨e, (insSortBy_perm _ entities).mem_iff.mpr he, hte⟩

/-! ### Token-shaped strings and occurrence analysis

The round-trip and unknown-token arguments rest on one structural fact:
a token is `<`, a body with no angle bracket, `>`; therefore inside any
string assembled from angle-bracket-free segments and tokens, a token can
occur only where a token was put. -/

/-- A token-shaped string: `<`, then a body free of `<` and `>`, then `>`. -/
def CleanTok (tk : Str) : Prop :=
  ∃ mid, tk = '<' :: mid ++ ['>'] ∧ '<' ∉ mid ∧ '>' ∉ mid

theorem cleanTok_lt_mem {tk : Str} (h : CleanTok tk) : '<' ∈ tk := by
  obtain ⟨mid, rfl, -, -⟩ := h
  simp

/-- Inside a clean token, `<` occurs only at position 0. -/
theorem cleanTok_getElem_ne_lt {tk : Str} (h : CleanTok tk) {i : Nat}
    (h0 : 0 < i) (hi : i < tk.length) : tk[i] ≠ '<' := by
  obtain ⟨mid, rfl, hmid, -⟩ := h
  intro hc
  have hmem : ('<' :: mid ++ ['>'])[i] ∈ '<' :: mid ++ ['>'] := List.getElem_mem hi
  rw [hc] at hmem
  have hcount : ∀ j (hj : j < ('<' :: mid ++ ['>']).length),
      ('<' :: mid ++ ['>'])[j] = '<' → j = 0 := by
    intro j hj hjc
    cases j with
    | zero => rfl
    | succ j =>
        exfalso
        have hj2 : j < (mid ++ ['>']).length := by simpa using hj
        have : ('<' :: mid ++ ['>'])[j + 1] = (mid ++ ['>'])[j] :=
          List.getElem_cons_succ '<' (mid ++ ['>']) j hj
        rw [this] at hjc
        have hmem2 : (mid ++ ['>'])[j] ∈ mid ++ ['>'] := List.getElem_mem hj2
        rw [hjc] at hmem2
        rcases List.mem_append.mp hmem2 with hm | hm
        · exact hmid hm
        · simp at hm
  exact absurd (hcount i hi hc) (by omega)

theorem isPrefixOf_head {p : Char} {t s : Str}
    (h : (p :: t).isPrefixOf s) : ∃ s2, s = p :: s2 := by
  obtain ⟨r, hr⟩ := List.isPrefixOf_iff_prefix.mp h
  exact ⟨t ++ r, by simpa using hr.symm⟩

theorem body_prefix_eq : ∀ (mt mu rest : Str), '>' ∉ mt → '>' ∉ mu →
    (mt ++ ['>'] <+: mu ++ ('>' :: rest)) → mt = mu := by
  intro mt
  induction mt with
  | nil =>
      intro mu rest hmt hmu h
      cases mu with
      | nil => rfl
      | cons x mu2 =>
          rw [List.nil_append] at h
          rcases List.cons_prefix_cons.mp h with ⟨h1, -⟩
          rw [← h1] at hmu
          exact absurd (List.mem_cons_self _ _) hmu
  | cons c mt2 ih =>
      intro mu rest hmt hmu h
      cases mu with
      | nil =>
          rw [List.cons_append, List.nil_append] at h
          rcases List.cons_prefix_cons.mp h with ⟨h1, -⟩
          rw [h1] at hmt
          exact absurd (List.mem_cons_self _ _) hmt
      | cons x mu2 =>
          rw [List.cons_append, List.cons_append] at h
          rcases List.cons_prefix_cons.mp h with ⟨h1, h2⟩
          rw [h1, ih mu2 rest (fun hh => hmt (List.mem_cons_of_mem _ hh))
            (fun hh => hmu (List.mem_cons_of_mem _ hh)) h2]

/-- A clean token occurring at the very start of a clean token (whatever
follows it) is that token. -/
theorem cleanTok_prefix_eq {tk u rest : Str} (htk : CleanTok tk)
    (hu : CleanTok u) (h : tk <+: u ++ rest) : tk = u := by
  obtain ⟨mt, rfl, -, hmt⟩ := htk
  obtain ⟨mu, rfl, -, hmu⟩ := hu
  have h2 : mt ++ ['>'] <+: mu ++ ('>' :: rest) := by
    rw [List.cons_append, List.append_assoc] at h
    simpa using (List.cons_prefix_cons.mp h).2
  rw [body_prefix_eq mt mu rest hmt hmu h2]

/-- No occurrence of the pattern begins inside `x`, so substitution copies
`x` unchanged and continues in the remainder. -/
theorem subst_skip (p : Char) (t v : Str) :
    ∀ (x rest : Str),
      (∀ i, i < x.length → ¬ (p :: t).isPrefixOf ((x ++ rest).drop i)) →
      subst (p :: t) v (x ++ rest) = x ++ subst (p :: t) v rest := by
  intro x
  induction x with
  | nil => intro rest _; simp
  | cons c x2 ih =>
      intro rest h
      rw [List.cons_append, subst_cons,
        if_neg (by simpa using h 0 (by simp)), ih rest
          (fun i hi => by simpa using h (i + 1) (by simp; omega))]
      rfl

/-- An occurrence of the pattern at the head is replaced, and substitution
resumes right after it. -/
theorem subst_match (p : Char) (t v rest : Str) :
    subst (p :: t) v ((p :: t) ++ rest) = v ++ subst (p :: t) v rest := by
  rw [List.cons_append, subst_cons, if_pos (by
    rw [← List.cons_append]
    exact List.isPrefixOf_iff_prefix.mpr (List.prefix_append _ _))]
  rw [List.drop_left]

/-- When every occurrence of the pattern that starts inside `a` also ends
inside `a`, substitution factors through the concatenation. -/
theorem subst_append_split (p : Char) (t v : Str) :
    ∀ (n : Nat) (a m : Str), a.length ≤ n →
      (∀ i, i < a.length → (p :: t).isPrefixOf ((a ++ m).drop i) →
        i + t.length + 1 ≤ a.length) →
      subst (p :: t) v (a ++ m) = subst (p :: t) v a ++ subst (p :: t) v m := by
  intro n
  induction n with
  | zero =>
      intro a m ha _
      have : a = [] := List.eq_nil_of_length_eq_zero (Nat.le_zero.mp ha)
      subst this
      simp [subst_nil]
  | succ n ih =>
      intro a m ha hocc
      cases a with
      | nil => simp [subst_nil]
      | cons c a2 =>
          by_cases hpre : (p :: t).isPrefixOf ((c :: a2) ++ m)
          · have hlen : t.length + 1 ≤ (c :: a2).length := by
              have := hocc 0 (by simp) (by simpa using hpre)
              omega
            have hpre2 : (p :: t) <+: (c :: a2) := by
              have h3 : (p :: t) <+: (c :: a2) ++ m :=
                List.isPrefixOf_iff_prefix.mp hpre
              rw [List.prefix_iff_eq_take] at h3
              rw [List.take_append_of_le_length (by simpa using hlen)] at h3
              exact List.prefix_iff_eq_take.mpr h3
            obtain ⟨a3, ha3⟩ := hpre2
            have hlen_eq : (c :: a2).length = t.length + 1 + a3.length := by
              rw [← ha3]
              simp only [List.length_append, List.length_cons]
            rw [← ha3, List.append_assoc, subst_match, subst_match]
            have hlen3 : a3.length ≤ n := by
              simp only [List.length_cons] at ha hlen_eq
              omega
            have hocc2 : ∀ i, i < a3.length →
                (p :: t).isPrefixOf ((a3 ++ m).drop i) →
                i + t.length + 1 ≤ a3.length := by
              intro i hi hp
              have hd : ((c :: a2) ++ m).drop (t.length + 1 + i)
                  = (a3 ++ m).drop i := by
                rw [← ha3, List.append_assoc]
                have hl : t.length + 1 = (p :: t).length := by simp
                rw [hl]
                exact List.drop_append i
              have := hocc (t.length + 1 + i) (by omega) (by rwa [hd])
              omega
            rw [ih a3 m hlen3 hocc2, List.append_assoc]
          · have h0 : ¬ (p :: t).isPrefixOf (c :: (a2 ++ m)) := by
              simpa [List.cons_append] using hpre
            have h1 : ¬ (p :: t).isPrefixOf (c :: a2) := by
              intro hh
              apply hpre
              rw [List.isPrefixOf_iff_prefix] at hh ⊢
              exact hh.trans (List.prefix_append _ _)
            have ha2 : a2.length ≤ n := by
              simp only [List.length_cons] at ha
              omega
            have hocc2 : ∀ i, i < a2.length →
                (p :: t).isPrefixOf ((a2 ++ m).drop i) →
                i + t.length + 1 ≤ a2.length := by
              intro i hi hp
              have := hocc (i + 1) (by simp; omega)
                (by simpa [List.cons_append] using hp)
              simp only [List.length_cons] at this
              omega
            rw [List.cons_append, subst_cons, if_neg h0, subst_cons, if_neg h1,
              ih a2 m ha2 hocc2]
            rfl

/-- Substitution of a clean token walks over a different clean token
unchanged. -/
theorem subst_skip_cleanTok (p : Char) (t v : Str) (htk : CleanTok (p :: t))
    (u rest : Str) (hu : CleanTok u) (hne : p :: t ≠ u) :
    subst (p :: t) v (u ++ rest) = u ++ subst (p :: t) v rest := by
  have hp2 : p = '<' := by
    obtain ⟨mt, he, -, -⟩ := htk
    exact (List.cons.injEq _ _ _ _ ▸ he).1
  apply subst_skip
  intro i hi hp
  rcases Nat.eq_zero_or_pos i with rfl | h0
  · rw [List.drop_zero] at hp
    exact hne (cleanTok_prefix_eq htk hu (List.isPrefixOf_iff_prefix.mp hp))
  · obtain ⟨s2, hs2⟩ := isPrefixOf_head hp
    have hiu : i < (u ++ rest).length := by
      simp
      omega
    have hgd : (u ++ rest).drop i = (u ++ rest)[i] :: (u ++ rest).drop (i + 1) :=
      List.drop_eq_getElem_cons hiu
    rw [hgd] at hs2
    have hchar : (u ++ rest)[i] = p := (List.cons.injEq _ _ _ _ ▸ hs2).1
    have hleft : (u ++ rest)[i] = u[i] := List.getElem_append_left hi
    exact cleanTok_getElem_ne_lt hu h0 hi (by rw [← hleft, hchar, hp2])

/-- Substituting a clean token in `a ++ S ++ b`, where `S` is a different
clean token, never touches `S` and factors into the two sides. -/
theorem subst_factor_middle (p : Char) (t v : Str) (htk : CleanTok (p :: t))
    (S : Str) (hS : CleanTok S) (hne : p :: t ≠ S) (a b : Str) :
    subst (p :: t) v (a ++ S ++ b)
      = subst (p :: t) v a ++ S ++ subst (p :: t) v b := by
  have hSne : S ≠ [] := by
    obtain ⟨mid, rfl, -, -⟩ := hS
    simp
  have hstep1 : subst (p :: t) v (a ++ (S ++ b))
      = subst (p :: t) v a ++ subst (p :: t) v (S ++ b) := by
    apply subst_append_split p t v a.length a (S ++ b) le_rfl
    intro i hi hp
    by_contra hcon
    push_neg at hcon
    obtain ⟨r, hr⟩ := List.isPrefixOf_iff_prefix.mp hp
    have hj : a.length - i < (p :: t).length := by
      simp
      omega
    have e1 : ((p :: t) ++ r)[a.length - i]? = (p :: t)[a.length - i]? :=
      List.getElem?_append_left hj
    have e2 : ((a ++ (S ++ b)).drop i)[a.length - i]?
        = (a ++ (S ++ b))[i + (a.length - i)]? :=
      List.getElem?_drop _ i (a.length - i)
    have e3 : i + (a.length - i) = a.length := by omega
    have e4 : (a ++ (S ++ b))[a.length]? = (S ++ b)[0]? := by
      rw [List.getElem?_append_right le_rfl, Nat.sub_self]
    have e5 : (S ++ b)[0]? = some '<' := by
      obtain ⟨mid, rfl, -, -⟩ := hS
      simp
    have e6 : (p :: t)[a.length - i]? = some '<' := by
      rw [← e1, hr, e2, e3, e4, e5]
    rw [List.getElem?_eq_getElem hj] at e6
    exact cleanTok_getElem_ne_lt htk (by omega) hj (Option.some.inj e6)
  have hstep2 : subst (p :: t) v (S ++ b) = S ++ subst (p :: t) v b :=
    subst_skip_cleanTok p t v htk S b hS hne
  rw [List.append_assoc, hstep1, hstep2, ← List.append_assoc]

/-! ### C7: unknown-token safety of `unmask` -/

/-- The token textual shape `<RG:X:Y>` of spec §4.6. -/
def tokenShaped (X Y : Str) : Str :=
  "<RG:".toList ++ X ++ [':'] ++ Y ++ ['>']

theorem tokenShaped_clean {X Y : Str} (hX1 : '<' ∉ X) (hX2 : '>' ∉ X)
    (hY1 : '<' ∉ Y) (hY2 : '>' ∉ Y) : CleanTok (tokenShaped X Y) := by
  refine ⟨'R' :: 'G' :: ':' :: (X ++ [':'] ++ Y), ?_, ?_, ?_⟩
  · simp [tokenShaped]
  · intro h
    simp only [List.mem_cons, List.mem_append, List.mem_singleton] at h
    rcases h with h | h | h | (h | h) | h
    · exact absurd h (by decide)
    · exact absurd h (by decide)
    · exact absurd h (by decide)
    · exact hX1 h
    · exact absurd h (by decide)
    · exact hY1 h
  · intro h
    simp only [List.mem_cons, List.mem_append, List.mem_singleton] at h
    rcases h with h | h | h | (h | h) | h
    · exact absurd h (by decide)
    · exact absurd h (by decide)
    · exact absurd h (by decide)
    · exact hX2 h
    · exact absurd h (by decide)
    · exact hY2 h

/-- Folding clean-token substitutions over `a ++ S ++ b` never touches the
clean token `S` when `S` is none of the keys. -/
theorem foldsubst_middle_token (M : List (Str × Str)) (S : Str)
    (hS : CleanTok S) :
    ∀ (K : List Str), (∀ k ∈ K, CleanTok k ∧ k ≠ S) → ∀ (a b : Str),
      K.foldl (fun res tk => subst tk (lookupVal M tk) res) (a ++ S ++ b)
        = K.foldl (fun res tk => subst tk (lookupVal M tk) res) a ++ S
          ++ K.foldl (fun res tk => subst tk (lookupVal M tk) res) b := by
  intro K
  induction K with
  | nil => intro _ a b; simp
  | cons k K2 ih =>
      intro h a b
      simp only [List.foldl_cons]
      obtain ⟨hk, hkne⟩ := h k (by simp)
      obtain ⟨pk, tk2, hke⟩ : ∃ pk tk2, k = pk :: tk2 := by
        obtain ⟨mid, hmid, -, -⟩ := hk
        exact ⟨'<', mid ++ ['>'], hmid⟩
      subst hke
      rw [subst_factor_middle pk tk2 _ hk S hS hkne a b]
      exact ih (fun k2 hk2 => h k2 (by simp [hk2])) _ _

/-- C7 as amended: for every mapping whose keys are all token-shaped with
angle-bracket-free bodies and whose values contain no backslash, `unmask`
succeeds, and a token-shaped substring `<RG:X:Y>` (with `X`, `Y` free of
angle brackets) that is not a key of the mapping is left exactly in place —
the two sides of it are processed independently and only substrings equal
to mapping keys are ever replaced.  (The backslash proviso keeps the
`re.sub` replacement templates verbatim; a value such as `\d` would abort
`unmask` with an `UnmaskingError` instead.) -/
theorem unmask_unknown_token_safe (M : List (Str × Str)) (a X Y b : Str)
    (hkeys : ∀ pr ∈ M, CleanTok pr.1)
    (hvalsbs : ∀ pr ∈ M, '\\' ∉ pr.2)
    (hX1 : '<' ∉ X) (hX2 : '>' ∉ X) (hY1 : '<' ∉ Y) (hY2 : '>' ∉ Y)
    (hnotkey : ∀ pr ∈ M, pr.1 ≠ tokenShaped X Y) :
    ∃ ra rb, unmaskRun a M = Except.ok ra ∧ unmaskRun b M = Except.ok rb
      ∧ unmaskRun (a ++ tokenShaped X Y ++ b) M
        = Except.ok (ra ++ tokenShaped X Y ++ rb) := by
  have hbs : ∀ k : Str, '\\' ∉ lookupVal M k := lookupVal_no_bs M hvalsbs
  refine ⟨unmaskFn a M, unmaskFn b M, unmaskRun_ok a M hbs,
    unmaskRun_ok b M hbs, ?_⟩
  rw [unmaskRun_ok _ M hbs]
  apply congrArg Except.ok
  have hS : CleanTok (tokenShaped X Y) := tokenShaped_clean hX1 hX2 hY1 hY2
  rw [unmaskFn, unmaskFn, unmaskFn]
  apply foldsubst_middle_token M _ hS
  intro k hk
  have hk2 : k ∈ M.map (fun pr => pr.1) :=
    (insSortBy_perm (fun a b : Str => decide (b.length ≤ a.length)) _).mem_iff.mp hk
  obtain ⟨pr, hpr, hpre⟩ := List.mem_map.mp hk2
  exact hpre ▸ ⟨hkeys pr hpr, hnotkey pr hpr⟩

/-- Witness for the amended C7 at a concrete mapping and token. -/
theorem unmask_unknown_token_safe_witness :
    ∃ ra rb,
      unmaskRun "p".toList [(tokenShaped "K".toList "H".toList, "v".toList)]
          = Except.ok ra
      ∧ unmaskRun "q".toList [(tokenShaped "K".toList "H".toList, "v".toList)]
          = Except.ok rb
      ∧ unmaskRun ("p".toList ++ tokenShaped "A".toList "B".toList ++ "q".toList)
            [(tokenShaped "K".toList "H".toList, "v".toList)]
          = Except.ok (ra ++ tokenShaped "A".toList "B".toList ++ rb) := by
  apply unmask_unknown_token_safe
  · intro pr hpr
    simp only [List.mem_singleton] at hpr
    subst hpr
    exact tokenShaped_clean (by decide) (by decide) (by decide) (by decide)
  · intro pr hpr
    simp only [List.mem_singleton] at hpr
    subst hpr
    decide
  · decide
  · decide
  · decide
  · decide
  · intro pr hpr
    simp only [List.mem_singleton] at hpr
    subst hpr
    decide

/-- Counterexample to C7 as literally stated: with the mapping
`{"RG": "ZZ"}` the text `<RG:A:B>` is itself a token-shaped substring and is
not a key of the mapping, yet `unmask` changes it (to `<ZZ:A:B>`), because a
key may match inside token-shaped text. -/
theorem unmask_unknown_token_cex :
    "<RG:A:B>".toList = tokenShaped "A".toList "B".toList
    ∧ (∀ pr ∈ [("RG".toList, "ZZ".toList)], pr.1 ≠ "<RG:A:B>".toList)
    ∧ unmaskRun "<RG:A:B>".toList [("RG".toList, "ZZ".toList)]
        ≠ Except.ok "<RG:A:B>".toList := by
  refine ⟨by decide, by decide, by decide⟩

/-! ### C1: the mask/unmask round trip

The masked text decomposes into alternating angle-bracket-free segments of
the original text and generated tokens; substitution of every mapping key
then restores each token slot to its recorded value, and the slots reassemble
to the original text. -/

/-- Substitution of a pattern starting with `<` walks over an
angle-bracket-free block unchanged. -/
theorem subst_skip_noLt (p : Char) (t v : Str) (hp2 : p = '<')
    (x rest : Str) (hx : '<' ∉ x) :
    subst (p :: t) v (x ++ rest) = x ++ subst (p :: t) v rest := by
  apply subst_skip
  intro i hi hpre
  obtain ⟨s2, hs2⟩ := isPrefixOf_head hpre
  have hiu : i < (x ++ rest).length := by
    simp
    omega
  rw [List.drop_eq_getElem_cons hiu] at hs2
  have hchar : (x ++ rest)[i] = p := (List.cons.injEq _ _ _ _ ▸ hs2).1
  have hleft : (x ++ rest)[i] = x[i] := List.getElem_append_left hi
  apply hx
  have hmemx : x[i] ∈ x := List.getElem_mem hi
  rw [← hleft, hchar, hp2] at hmemx
  exact hmemx

/-- Substituting one clean token in a string assembled from clean tokens and
angle-bracket-free blocks replaces exactly the slots holding that token. -/
theorem subst_flatten_pieces (p : Char) (t v : Str) (htk : CleanTok (p :: t)) :
    ∀ (pieces : List Str), (∀ pc ∈ pieces, CleanTok pc ∨ '<' ∉ pc) →
      subst (p :: t) v pieces.flatten
        = (pieces.map (fun pc => if pc = p :: t then v else pc)).flatten := by
  have hp2 : p = '<' := by
    obtain ⟨mt, he, -, -⟩ := htk
    exact (List.cons.injEq _ _ _ _ ▸ he).1
  intro pieces
  induction pieces with
  | nil => intro _; simp [subst_nil]
  | cons pc ps ih =>
      intro hp
      simp only [List.flatten_cons, List.map_cons]
      by_cases hpc : pc = p :: t
      · subst hpc
        rw [subst_match, if_pos rfl, ih (fun q hq => hp q (by simp [hq]))]
      · rw [if_neg hpc]
        rcases hp pc (by simp) with hclean | hnolt
        · rw [subst_skip_cleanTok p t v htk pc ps.flatten hclean
            (fun hh => hpc hh.symm), ih (fun q hq => hp q (by simp [hq]))]
        · rw [subst_skip_noLt p t v hp2 pc ps.flatten hnolt,
            ih (fun q hq => hp q (by simp [hq]))]

/-- Folding all key substitutions over a clean piece decomposition replaces
every key-slot by its looked-up value and leaves everything else. -/
theorem unmask_fold_pieces (M : List (Str × Str)) :
    ∀ (K : List Str) (pieces : List Str),
      (∀ k ∈ K, CleanTok k) →
      (∀ k ∈ K, '<' ∉ lookupVal M k) →
      (∀ pc ∈ pieces, CleanTok pc ∨ '<' ∉ pc) →
      K.foldl (fun res tk => subst tk (lookupVal M tk) res) pieces.flatten
        = (pieces.map (fun pc => if pc ∈ K then lookupVal M pc else pc)).flatten := by
  intro K
  induction K with
  | nil =>
      intro pieces _ _ _
      simp
  | cons k K2 ih =>
      intro pieces hK hvals hp
      simp only [List.foldl_cons]
      have hkc : CleanTok k := hK k (by simp)
      obtain ⟨pk, tk2, hke⟩ : ∃ pk tk2, k = pk :: tk2 := by
        obtain ⟨mid, hmid, -, -⟩ := hkc
        exact ⟨'<', mid ++ ['>'], hmid⟩
      subst hke
      rw [subst_flatten_pieces pk tk2 _ (hK _ (by simp)) pieces hp]
      rw [ih (pieces.map (fun pc => if pc = pk :: tk2
            then lookupVal M (pk :: tk2) else pc))
          (fun k2 h2 => hK k2 (by simp [h2]))
          (fun k2 h2 => hvals k2 (by simp [h2])) ?_]
      · rw [List.map_map]
        apply congrArg List.flatten
        apply List.map_congr_left
        intro pc hpc
        simp only [Function.comp_apply]
        by_cases hpck : pc = pk :: tk2
        · subst hpck
          rw [if_pos rfl, if_pos (List.mem_cons_self _ _)]
          by_cases hvk : lookupVal M (pk :: tk2) ∈ K2
          · exact absurd (cleanTok_lt_mem (hK _ (List.mem_cons_of_mem _ hvk)))
              (hvals _ (List.mem_cons_self _ _))
          · rw [if_neg hvk]
        · rw [if_neg hpck]
          by_cases hpk2 : pc ∈ K2
          · rw [if_pos hpk2, if_pos (List.mem_cons_of_mem _ hpk2)]
          · rw [if_neg hpk2, if_neg (by simp [hpck, hpk2])]
      · intro pc hpc
        obtain ⟨pc0, hpc0, hpc0e⟩ := List.mem_map.mp hpc
        by_cases h0 : pc0 = pk :: tk2
        · right
          rw [← hpc0e, h0, if_pos rfl]
          exact hvals _ (by simp)
        · rw [← hpc0e, if_neg h0]
          exact hp pc0 hpc0

/-- The text component of the mask fold. -/
theorem maskFold_fst (salt : Str) :
    ∀ (l : List Entity) (s : Str) (m : List (Str × Str)),
      (l.foldl (maskStep salt) (s, m)).1
        = l.foldl (fun cur e => cur.take e.start
            ++ tokenOf salt e.label e.text ++ cur.drop e.endPos) s := by
  intro l
  induction l with
  | nil => intro s m; rfl
  | cons e l ih =>
      intro s m
      simp only [List.foldl_cons]
      exact ih _ _

/-- Alternating segment/token decomposition of the masked text, indexed by
the entities in ascending-start order. -/
def piecesOf (salt : Str) (text : Str) (pos : Nat) : List Entity → List Str
  | [] => [text.drop pos]
  | e :: es => (text.drop pos).take (e.start - pos)
      :: tokenOf salt e.label e.text :: piecesOf salt text e.endPos es

/-- Right-to-left splicing over ascending, chained, in-bounds entities
produces exactly the piece decomposition. -/
theorem splice_foldr_pieces (salt text : Str) :
    ∀ (asc : List Entity),
      asc.Pairwise (fun a b => a.endPos ≤ b.start) →
      (∀ e ∈ asc, e.start < e.endPos ∧ e.endPos ≤ text.length) →
      asc.foldr (fun e cur => cur.take e.start
          ++ tokenOf salt e.label e.text ++ cur.drop e.endPos) text
        = (piecesOf salt text 0 asc).flatten := by
  intro asc
  induction asc with
  | nil => intro _ _; simp [piecesOf]
  | cons e es ih =>
      intro hchain hbounds
      rw [List.pairwise_cons] at hchain
      simp only [List.foldr_cons]
      rw [ih hchain.2 (fun x hx => hbounds x (by simp [hx]))]
      cases es with
      | nil => simp [piecesOf]
      | cons f es2 =>
          have he := hbounds e (by simp)
          have hf := hbounds f (by simp)
          have hef : e.endPos ≤ f.start := hchain.1 f (by simp)
          have hlen_take : (text.take f.start).length = f.start := by
            rw [List.length_take]
            omega
          simp only [piecesOf, List.flatten_cons, Nat.sub_zero, List.drop_zero]
          rw [List.take_append_of_le_length (by rw [hlen_take]; omega),
            List.take_take, Nat.min_eq_left (by omega),
            List.drop_append_of_le_length (by rw [hlen_take]; omega),
            List.drop_take]
          simp [List.append_assoc]

/-- Keys already present survive the whole mapping fold. -/
theorem buildMap_mono (salt : Str) :
    ∀ (l : List Entity) (acc : List (Str × Str)) (pr : Str × Str),
      pr ∈ acc → pr ∈ l.foldl (mapInsert salt) acc := by
  intro l
  induction l with
  | nil => intro acc pr h; exact h
  | cons e l ih =>
      intro acc pr h
      simp only [List.foldl_cons]
      apply ih
      rw [mapInsert]
      split
      · exact h
      · exact List.mem_append.mpr (Or.inl h)

/-- Every mapping entry is the token and text of some processed entity. -/
theorem buildMap_entries (salt : Str) :
    ∀ (l : List Entity) (acc : List (Str × Str)) (pr : Str × Str),
      pr ∈ l.foldl (mapInsert salt) acc →
      pr ∈ acc ∨ ∃ e ∈ l, pr = (tokenOf salt e.label e.text, e.text) := by
  intro l
  induction l with
  | nil => intro acc pr h; exact Or.inl h
  | cons e l ih =>
      intro acc pr h
      simp only [List.foldl_cons] at h
      rcases ih _ pr h with hacc | ⟨f, hf, hfe⟩
      · rw [mapInsert] at hacc
        split at hacc
        · exact Or.inl hacc
        · rcases List.mem_append.mp hacc with h2 | h2
          · exact Or.inl h2
          · simp only [List.mem_singleton] at h2
            exact Or.inr ⟨e, by simp, h2⟩
      · exact Or.inr ⟨f, by simp [hf], hfe⟩

/-- Every processed entity's token is a key of the mapping. -/
theorem buildMap_key_exists (salt : Str) :
    ∀ (l : List Entity) (acc : List (Str × Str)) (e : Entity), e ∈ l →
      ∃ pr ∈ l.foldl (mapInsert salt) acc,
        pr.1 = tokenOf salt e.label e.text := by
  intro l
  induction l with
  | nil => intro acc e he; simp at he
  | cons f l ih =>
      intro acc e he
      rcases List.mem_cons.mp he with rfl | he2
      · have hkey : ∃ pr ∈ mapInsert salt acc e,
            pr.1 = tokenOf salt e.label e.text := by
          rw [mapInsert]
          split
          · rename_i hany
            obtain ⟨pr, hpr, hpr2⟩ := List.any_eq_true.mp hany
            exact ⟨pr, hpr, by simpa using hpr2⟩
          · exact ⟨(tokenOf salt e.label e.text, e.text), by simp, rfl⟩
        obtain ⟨pr, hpr, hpr2⟩ := hkey
        exact ⟨pr, buildMap_mono salt l _ pr hpr, hpr2⟩
      · exact ih _ e he2

/-- The piece decomposition with every token slot restored to the entity's
original text. -/
def restoredPieces (text : Str) (pos : Nat) : List Entity → List Str
  | [] => [text.drop pos]
  | e :: es => (text.drop pos).take (e.start - pos)
      :: e.text :: restoredPieces text e.endPos es

/-- Restored pieces reassemble the original text. -/
theorem restoredPieces_flatten (text : Str) :
    ∀ (l : List Entity) (pos : Nat),
      l.Pairwise (fun a b => a.endPos ≤ b.start) →
      (∀ e ∈ l, e.start < e.endPos
        ∧ e.text = (text.drop e.start).take (e.endPos - e.start)) →
      (∀ e ∈ l, pos ≤ e.start) →
      (restoredPieces text pos l).flatten = text.drop pos := by
  intro l
  induction l with
  | nil => intro pos _ _ _; simp [restoredPieces]
  | cons e l ih =>
      intro pos hchain hv hpos
      rw [List.pairwise_cons] at hchain
      have hve := hv e (by simp)
      simp only [restoredPieces, List.flatten_cons]
      rw [ih e.endPos hchain.2 (fun x hx => hv x (by simp [hx]))
        (fun x hx => hchain.1 x hx)]
      rw [hve.2]
      have hA : (text.drop e.start).take (e.endPos - e.start) ++ text.drop e.endPos
          = text.drop e.start := by
        have h := List.take_append_drop (e.endPos - e.start) (text.drop e.start)
        rw [List.drop_drop] at h
        rw [show e.start + (e.endPos - e.start) = e.endPos from by omega] at h
        exact h
      have hB : (text.drop pos).take (e.start - pos) ++ text.drop e.start
          = text.drop pos := by
        have h := List.take_append_drop (e.start - pos) (text.drop pos)
        rw [List.drop_drop] at h
        rw [show pos + (e.start - pos) = e.start from by
          have := hpos e (by simp)
          omega] at h
        exact h
      rw [hA, hB]

/-- A per-piece map that fixes angle-bracket-free blocks and sends each
entity token to its text turns the decomposition into the restored one. -/
theorem piecesOf_map_restored (salt text : Str) (g : Str → Str)
    (hfix : ∀ s : Str, '<' ∉ s → g s = s) (hlt : '<' ∉ text) :
    ∀ (l : List Entity) (pos : Nat),
      (∀ e ∈ l, g (tokenOf salt e.label e.text) = e.text) →
      (piecesOf salt text pos l).map g = restoredPieces text pos l := by
  intro l
  induction l with
  | nil =>
      intro pos _
      simp only [piecesOf, restoredPieces, List.map_cons, List.map_nil]
      rw [hfix _ (fun hc => hlt (List.drop_subset pos text hc))]
  | cons e l ih =>
      intro pos htok
      simp only [piecesOf, restoredPieces, List.map_cons]
      rw [hfix _ (fun hc => hlt (List.drop_subset pos text
          (List.take_subset _ _ hc))),
        htok e (by simp), ih e.endPos (fun x hx => htok x (by simp [hx]))]

/-- C1 as amended: the round trip holds for every input text and every
extraction output (any extractor configuration) that is pairwise
non-overlapping and span-valid, provided additionally that `<` does not
occur in the input text, no extracted value contains a backslash, no entity
label contains `<` or `>`, and token generation is collision-free on the
extracted entities (equal tokens imply equal original values).  The
counterexample `roundtrip_cex` shows a proviso is forced: as literally
stated (without them) the claim is false.  (The backslash proviso comes
from the `re.sub` replacement templates: a value `a\nb` would be restored
as `a`, newline, `b`, and a value such as `\d` would abort `unmask`.) -/
theorem mask_unmask_roundtrip (salt text : Str) (entities : List Entity)
    (hnov : entities.Pairwise fun a b => isOverlap a b = false)
    (hval : ∀ e ∈ entities, e.start < e.endPos ∧ e.endPos ≤ text.length
      ∧ e.text = (text.drop e.start).take (e.endPos - e.start))
    (hlt : '<' ∉ text)
    (hbs : ∀ e ∈ entities, '\\' ∉ e.text)
    (hlab : ∀ e ∈ entities, '<' ∉ e.label ∧ '>' ∉ e.label)
    (hinj : ∀ e ∈ entities, ∀ f ∈ entities,
      tokenOf salt e.label e.text = tokenOf salt f.label f.text →
      e.text = f.text) :
    unmaskRun (maskEntities salt text entities).1
      (maskEntities salt text entities).2.1 = Except.ok text := by
  have hperm : List.Perm (sortByStartDesc entities) entities :=
    insSortBy_perm _ entities
  have hmem_asc : ∀ e : Entity,
      e ∈ (sortByStartDesc entities).reverse ↔ e ∈ entities := by
    intro e
    rw [List.mem_reverse]
    exact hperm.mem_iff
  have hsorted_desc : (sortByStartDesc entities).Pairwise
      (fun a b => b.start ≤ a.start) := by
    have h := @insSortBy_pairwise Entity
      (fun a b : Entity => decide (b.start ≤ a.start))
      (fun a b c h1 h2 => by
        simp only [decide_eq_true_eq] at *
        omega)
      (fun a b => by
        simp only [decide_eq_true_eq]
        omega) entities
    exact h.imp (by simp)
  have hnov_desc : (sortByStartDesc entities).Pairwise NoOv :=
    (hperm.pairwise_iff (fun hab => noOv_symm hab)).mpr hnov
  have hsorted_asc : ((sortByStartDesc entities).reverse).Pairwise
      (fun a b => a.start ≤ b.start) := by
    rw [List.pairwise_reverse]
    exact hsorted_desc
  have hnov_asc : ((sortByStartDesc entities).reverse).Pairwise NoOv := by
    rw [List.pairwise_reverse]
    exact hnov_desc.imp (fun hab => noOv_symm hab)
  have hchain : ((sortByStartDesc entities).reverse).Pairwise
      (fun a b => a.endPos ≤ b.start) := by
    refine (hsorted_asc.and hnov_asc).imp_of_mem ?_
    intro a b ha hb hab
    have hbv := (hval b ((hmem_asc b).mp hb)).1
    have h2 : b.start < a.endPos → b.endPos ≤ a.start := by
      simpa [NoOv, isOverlap] using hab.2
    have h1 := hab.1
    omega
  have hbounds : ∀ e ∈ (sortByStartDesc entities).reverse,
      e.start < e.endPos ∧ e.endPos ≤ text.length := by
    intro e he
    exact ⟨(hval e ((hmem_asc e).mp he)).1, (hval e ((hmem_asc e).mp he)).2.1⟩
  have hmasked : (maskEntities salt text entities).1
      = (piecesOf salt text 0 ((sortByStartDesc entities).reverse)).flatten := by
    show ((sortByStartDesc entities).foldl (maskStep salt) (text, [])).1 = _
    rw [maskFold_fst]
    have hconv := List.foldl_reverse ((sortByStartDesc entities).reverse)
      (fun cur (e : Entity) => cur.take e.start
        ++ tokenOf salt e.label e.text ++ cur.drop e.endPos) text
    rw [List.reverse_reverse] at hconv
    rw [hconv]
    exact splice_foldr_pieces salt text _ hchain hbounds
  have htok_clean : ∀ e ∈ entities, CleanTok (tokenOf salt e.label e.text) := by
    intro e he
    have hl := hlab e he
    have hsh : ∀ c ∈ shortHash salt e.label e.text, c ≠ '<' ∧ c ≠ '>' :=
      fun c hc => b32Alph_no_delim c (shortHash_mem_alph salt e.label e.text c hc)
    refine tokenShaped_clean hl.1 hl.2 ?_ ?_
    · intro hc
      exact (hsh '<' hc).1 rfl
    · intro hc
      exact (hsh '>' hc).2 rfl
  have hMfold : (maskEntities salt text entities).2.1
      = (sortByStartDesc entities).foldl (mapInsert salt) [] :=
    maskFold_snd salt (sortByStartDesc entities) text []
  have hMentries : ∀ pr ∈ (maskEntities salt text entities).2.1,
      ∃ e ∈ entities, pr = (tokenOf salt e.label e.text, e.text) := by
    intro pr hpr
    rw [hMfold] at hpr
    rcases buildMap_entries salt _ [] pr hpr with h0 | ⟨f, hf, hfe⟩
    · simp at h0
    · exact ⟨f, hperm.mem_iff.mp hf, hfe⟩
  have hkeys_clean : ∀ k ∈ (maskEntities salt text entities).2.1.map
      (fun pr => pr.1), CleanTok k := by
    intro k hk
    obtain ⟨pr, hpr, hpre⟩ := List.mem_map.mp hk
    obtain ⟨f, hf, hfe⟩ := hMentries pr hpr
    rw [← hpre, hfe]
    exact htok_clean f hf
  have hvals_free : ∀ k : Str,
      '<' ∉ lookupVal (maskEntities salt text entities).2.1 k := by
    intro k
    rw [lookupVal]
    cases hfind : (maskEntities salt text entities).2.1.find?
        (fun pr => pr.1 == k) with
    | none => simp
    | some pr =>
        obtain ⟨f, hf, hfe⟩ := hMentries pr (List.mem_of_find?_eq_some hfind)
        rw [hfe]
        dsimp only
        rw [(hval f hf).2.2]
        intro hc
        exact hlt (List.drop_subset _ _ (List.take_subset _ _ hc))
  have hvals_bs : ∀ k : Str,
      '\\' ∉ lookupVal (maskEntities salt text entities).2.1 k := by
    intro k
    rw [lookupVal]
    cases hfind : (maskEntities salt text entities).2.1.find?
        (fun pr => pr.1 == k) with
    | none => simp
    | some pr =>
        obtain ⟨f, hf, hfe⟩ := hMentries pr (List.mem_of_find?_eq_some hfind)
        rw [hfe]
        dsimp only
        exact hbs f hf
  have hkey_mem : ∀ e ∈ entities, tokenOf salt e.label e.text
      ∈ (maskEntities salt text entities).2.1.map (fun pr => pr.1) := by
    intro e he
    rw [hMfold]
    obtain ⟨pr, hpr, hpre⟩ :=
      buildMap_key_exists salt _ [] e (hperm.mem_iff.mpr he)
    exact List.mem_map.mpr ⟨pr, hpr, hpre⟩
  have hlookup : ∀ e ∈ entities,
      lookupVal (maskEntities salt text entities).2.1
        (tokenOf salt e.label e.text) = e.text := by
    intro e he
    rw [lookupVal]
    cases hfind : (maskEntities salt text entities).2.1.find?
        (fun pr => pr.1 == tokenOf salt e.label e.text) with
    | none =>
        exfalso
        rw [List.find?_eq_none] at hfind
        obtain ⟨pr, hpr, hpre⟩ := List.mem_map.mp (hkey_mem e he)
        exact hfind pr hpr (by simpa using hpre)
    | some pr =>
        obtain ⟨f, hf, hfe⟩ := hMentries pr (List.mem_of_find?_eq_some hfind)
        have hpr1 : pr.1 = tokenOf salt e.label e.text := by
          simpa using List.find?_some hfind
        rw [hfe]
        dsimp only
        apply hinj f hf e he
        rw [hfe] at hpr1
        exact hpr1
  have hclass : ∀ (l : List Entity) (pos : Nat), (∀ e ∈ l, e ∈ entities) →
      ∀ pc ∈ piecesOf salt text pos l, CleanTok pc ∨ '<' ∉ pc := by
    intro l
    induction l with
    | nil =>
        intro pos _ pc hpc
        simp only [piecesOf, List.mem_singleton] at hpc
        right
        rw [hpc]
        intro hc
        exact hlt (List.drop_subset _ _ hc)
    | cons e l ih =>
        intro pos hsub pc hpc
        simp only [piecesOf, List.mem_cons] at hpc
        rcases hpc with rfl | rfl | hpc
        · right
          intro hc
          exact hlt (List.drop_subset _ _ (List.take_subset _ _ hc))
        · exact Or.inl (htok_clean e (hsub e (by simp)))
        · exact ih e.endPos (fun x hx => hsub x (by simp [hx])) pc hpc
  have hKmem : ∀ k : Str,
      k ∈ insSortBy (fun a b : Str => decide (b.length ≤ a.length))
        ((maskEntities salt text entities).2.1.map (fun pr => pr.1))
      ↔ k ∈ (maskEntities salt text entities).2.1.map (fun pr => pr.1) := by
    intro k
    exact (insSortBy_perm _ _).mem_iff
  rw [unmaskRun_ok _ _ hvals_bs]
  apply congrArg Except.ok
  rw [hmasked]
  show (insSortBy (fun a b : Str => decide (b.length ≤ a.length))
      ((maskEntities salt text entities).2.1.map (fun pr => pr.1))).foldl
      (fun res tk =>
        subst tk (lookupVal (maskEntities salt text entities).2.1 tk) res)
      (piecesOf salt text 0 ((sortByStartDesc entities).reverse)).flatten
      = text
  rw [unmask_fold_pieces _ _ _
    (fun k hk => hkeys_clean k ((hKmem k).mp hk))
    (fun k _ => hvals_free k)
    (hclass _ 0 (fun e he => (hmem_asc e).mp he))]
  rw [piecesOf_map_restored salt text _ ?_ hlt _ 0 ?_]
  · rw [restoredPieces_flatten text _ 0 hchain
      (fun e he => ⟨(hval e ((hmem_asc e).mp he)).1,
        (hval e ((hmem_asc e).mp he)).2.2⟩)
      (fun e _ => Nat.zero_le _)]
    simp
  · intro s hs
    by_cases hsk : s ∈ insSortBy (fun a b : Str => decide (b.length ≤ a.length))
      ((maskEntities salt text entities).2.1.map (fun pr => pr.1))
    · exact absurd (cleanTok_lt_mem (hkeys_clean s ((hKmem s).mp hsk))) hs
    · rw [if_neg hsk]
  · intro e he
    rw [if_pos ((hKmem _).mpr (hkey_mem e ((hmem_asc e).mp he)))]
    exact hlookup e ((hmem_asc e).mp he)

set_option maxRecDepth 40000 in
/-- Witness for the amended C1: one EMAIL entity in a concrete text; all
provisos hold and the round trip is exact. -/
theorem mask_unmask_roundtrip_witness :
    (([Entity.mk "a@b.com".toList "EMAIL".toList 8 15 1] : List Entity).Pairwise
        fun a b => isOverlap a b = false)
    ∧ (∀ e ∈ [Entity.mk "a@b.com".toList "EMAIL".toList 8 15 1],
        e.start < e.endPos ∧ e.endPos ≤ "Contact a@b.com now".toList.length
        ∧ e.text = ("Contact a@b.com now".toList.drop e.start).take
            (e.endPos - e.start))
    ∧ '<' ∉ "Contact a@b.com now".toList
    ∧ (∀ e ∈ [Entity.mk "a@b.com".toList "EMAIL".toList 8 15 1],
        '\\' ∉ e.text)
    ∧ unmaskRun (maskEntities "s0000000".toList "Contact a@b.com now".toList
          [Entity.mk "a@b.com".toList "EMAIL".toList 8 15 1]).1
        (maskEntities "s0000000".toList "Contact a@b.com now".toList
          [Entity.mk "a@b.com".toList "EMAIL".toList 8 15 1]).2.1
      = Except.ok "Contact a@b.com now".toList := by
  refine ⟨by decide, by decide, by decide, by decide,
    mask_unmask_roundtrip _ _ _ (by decide) (by decide) (by decide) (by decide)
      (by decide) (by decide)⟩

/-- A text that already contains the literal token of its own email entity. -/
def cexText : Str :=
  "a@b.com ".toList ++ tokenOf "s0000000".toList "EMAIL".toList "a@b.com".toList

set_option maxRecDepth 40000 in
/-- Counterexample to C1 as literally stated: a single valid, trivially
non-overlapping extracted entity, yet unmask(mask(text)) differs from the
original text, because the text already contains the entity's own token and
the global replacement of `unmask` rewrites that literal occurrence too. -/
theorem roundtrip_cex :
    (([Entity.mk "a@b.com".toList "EMAIL".toList 0 7 1] : List Entity).Pairwise
        fun a b => isOverlap a b = false)
    ∧ (∀ e ∈ [Entity.mk "a@b.com".toList "EMAIL".toList 0 7 1],
        e.start < e.endPos ∧ e.endPos ≤ cexText.length
        ∧ e.text = (cexText.drop e.start).take (e.endPos - e.start))
    ∧ unmaskRun (maskEntities "s0000000".toList cexText
          [Entity.mk "a@b.com".toList "EMAIL".toList 0 7 1]).1
        (maskEntities "s0000000".toList cexText
          [Entity.mk "a@b.com".toList "EMAIL".toList 0 7 1]).2.1
      ≠ Except.ok cexText := by
  refine ⟨by decide, by decide, by decide⟩

/-! ### C6: failure of extraction aborts the whole mask call

`LLMNER.extract_entities` wraps any exception of the completion call into
`NERError("LLM实体识别失败: ...")`; `HybridNER.extract_entities` runs the
pattern extractor, then the delegated one, with no handler — so a delegated
failure propagates even when the pattern extractor already produced
entities; `DataMasker.mask` wraps any exception from extraction or
substitution into `MaskingError("脱敏处理失败: ...")` and returns nothing.
The exception channel is modelled with `Except`; the `last_entities`
instance slot is threaded explicitly (it is written only after extraction
returns, so a failed extraction leaves it untouched). -/

def wrapNERMsg (msg : Str) : Str := "LLM实体识别失败: ".toList ++ msg

def wrapMaskMsg (msg : Str) : Str := "脱敏处理失败: ".toList ++ msg

/-- `LLMNER.extract_entities`'s exception wrapper around the raw
delegated-extraction outcome. -/
def llmNERRun (raw : Str → Except Str (List Entity)) (t : Str) :
    Except Str (List Entity) :=
  match raw t with
  | .error e => .error (wrapNERMsg e)
  | .ok l => .ok l

/-- `HybridNER.extract_entities`: pattern results first, delegated results
appended, merged; a delegated-extractor exception propagates unhandled. -/
def hybridExtract (regexExtract : Str → List Entity)
    (llmExtract : Str → Except Str (List Entity)) (t : Str) :
    Except Str (List Entity) :=
  match llmExtract t with
  | .error e => .error e
  | .ok l => .ok (mergeEntities (regexExtract t ++ l))

/-- `DataMasker.mask` with its exception channel and `last_entities` slot
explicit. -/
def maskRun (extract : Str → Except Str (List Entity)) (salt : Str)
    (lastEntities : List Entity) (text : Str) :
    Except Str (Str × List (Str × Str) × List Entity) × List Entity :=
  match extract text with
  | .error e => (.error (wrapMaskMsg e), lastEntities)
  | .ok entities =>
      let r := maskEntities salt text entities
      (.ok r, r.2.2)

/-- C6: when the delegated extractor fails inside one mask call, the whole
call aborts with the doubly wrapped error, no masked text or mapping is
produced (the result is the `error` branch carrying no payload), the
`last_entities` slot is left exactly as it was, and the pattern
sub-extractor's results (however many) are discarded — no fallback. -/
theorem mask_aborts_no_fallback (regexExtract : Str → List Entity)
    (raw : Str → Except Str (List Entity)) (salt : Str) (st : List Entity)
    (text : Str) (err : Str) (hfail : raw text = .error err) :
    maskRun (hybridExtract regexExtract (llmNERRun raw)) salt st text
      = (.error (wrapMaskMsg (wrapNERMsg err)), st) := by
  simp [maskRun, hybridExtract, llmNERRun, hfail]

/-- Witness for C6: a pattern extractor with one usable entity, a delegated
extractor that throws. -/
theorem mask_aborts_no_fallback_witness :
    maskRun
      (hybridExtract (fun _ => [Entity.mk "a".toList "L".toList 0 1 1])
        (llmNERRun (fun _ => Except.error "boom".toList)))
      "s0000000".toList [] "abc".toList
      = (.error (wrapMaskMsg (wrapNERMsg "boom".toList)), []) :=
  mask_aborts_no_fallback _ _ _ _ _ _ rfl

end RagGuard
